import Mathlib

/-!
Verification of the wake-and-focus reconciliation scripts.

The definitions below are a shallow embedding of the Python sources:
  * `scripts/wake_focus_sync.py`   (historical-range variant)
  * `wake_focus_sync.py`           (single-day variant)
Machine reals (Python floats / JSON numbers) are modelled as exact
rationals; external library facilities (time-zone conversion, ISO8601
parsing) are abstracted as function parameters collected in `Env`.
-/

namespace WakeFocus

/-- Config constant `MIN_SESSION_MINUTES = 50`. -/
def MIN_SESSION_MINUTES : Int := 50

/-- Config constant `CUTOFF_HOUR = 9`. -/
def CUTOFF_HOUR : Int := 9

/-- Config constant `CUTOFF_MINUTE = 15` (inclusive). -/
def CUTOFF_MINUTE : Int := 15

/-- Config constant `WAKEANDFOCUS_GOAL = "wakeandfocus"`. -/
def WAKEANDFOCUS_GOAL : String := "wakeandfocus"

/-- `qualifies_time(hour, minute)` from both script variants:
`(hour < CUTOFF_HOUR) or (hour == CUTOFF_HOUR and minute <= CUTOFF_MINUTE)`. -/
def qualifies_time (hour minute : Int) : Bool :=
  decide (hour < CUTOFF_HOUR ∨ (hour = CUTOFF_HOUR ∧ minute ≤ CUTOFF_MINUTE))

/-! ## The comment regex

`COMMENT_RE = ^\s*(\d+)\s*minutes?\s+session\s+at\s+(\d\x7b1,2\x7d):(\d\x7b2\x7d)\b`
(case-insensitive), applied with `re.search`; since the pattern is anchored
with `^` and MULTILINE is off, it can only match at the start of the string.
We model `\s`, `\d` and `\w` by their ASCII meaning (Python's str patterns
additionally admit rare Unicode whitespace/digit/word characters, which do
not occur in the data handled here). -/

/-- ASCII whitespace recognised by the regex class `\s`. -/
def isSpaceChar (c : Char) : Bool :=
  c = ' ' || c = '\t' || c = '\n' || c = '\x0d' || c = '\x0b' || c = '\x0c'

/-- ASCII digit, regex class `\d`. -/
def isDigitChar (c : Char) : Bool :=
  '0' ≤ c && c ≤ '9'

/-- ASCII word character, regex class `\w` (used for the `\b` boundary). -/
def isWordChar (c : Char) : Bool :=
  isDigitChar c || ('a' ≤ c && c ≤ 'z') || ('A' ≤ c && c ≤ 'Z') || c = '_'

/-- Numeric value of a digit string (the effect of Python `int` on a
matched digit group). -/
def digitsToNat (ds : List Char) : Nat :=
  ds.foldl (fun acc c => acc * 10 + (c.toNat - '0'.toNat)) 0

/-- Case-insensitive literal match: consumes `lit` from the front of `s`
(each character compared after `toLower`), returning the rest. -/
def matchCI (lit : List Char) (s : List Char) : Option (List Char) :=
  match lit, s with
  | [], rest => some rest
  | _ :: _, [] => none
  | l :: ls, c :: cs => if c.toLower = l then matchCI ls cs else none

/-- `\s+`: one or more whitespace characters. -/
def matchSpaces1 (s : List Char) : Option (List Char) :=
  match s with
  | [] => none
  | c :: cs => if isSpaceChar c then some (cs.dropWhile isSpaceChar) else none

/-- The hour group `(\d\x7b1,2\x7d)` followed by the literal colon; the regex
engine first tries two digits and backtracks to one. Returns the digit
group and the rest after the colon. -/
def matchHourColon (s : List Char) : Option (List Char × List Char) :=
  match s with
  | c1 :: c2 :: c3 :: rest =>
    if isDigitChar c1 && isDigitChar c2 && c3 = ':' then some ([c1, c2], rest)
    else if isDigitChar c1 && c2 = ':' then some ([c1], c3 :: rest)
    else none
  | [c1, c2] => if isDigitChar c1 && c2 = ':' then some ([c1], []) else none
  | _ => none

/-- The minute group `(\d\x7b2\x7d)` followed by the word boundary `\b`. -/
def matchMinuteB (s : List Char) : Option (List Char) :=
  match s with
  | m1 :: m2 :: rest =>
    if isDigitChar m1 && isDigitChar m2 &&
        (match rest with | [] => true | r :: _ => !isWordChar r) then
      some [m1, m2]
    else none
  | _ => none

/-- Matching `COMMENT_RE` against the whole character list, yielding the
three numeric groups `(minutes, hour, minute)` on success. -/
def matchComment (s : List Char) : Option (Nat × Nat × Nat) :=
  let s1 := s.dropWhile isSpaceChar
  let digits := s1.takeWhile isDigitChar
  if digits = [] then none else
  let s2 := (s1.dropWhile isDigitChar).dropWhile isSpaceChar
  match matchCI ['m', 'i', 'n', 'u', 't', 'e'] s2 with
  | none => none
  | some s3 =>
    let s4 := match s3 with
      | c :: cs => if c.toLower = 's' then cs else s3
      | [] => s3
    match matchSpaces1 s4 with
    | none => none
    | some s5 =>
      match matchCI ['s', 'e', 's', 's', 'i', 'o', 'n'] s5 with
      | none => none
      | some s6 =>
        match matchSpaces1 s6 with
        | none => none
        | some s7 =>
          match matchCI ['a', 't'] s7 with
          | none => none
          | some s8 =>
            match matchSpaces1 s8 with
            | none => none
            | some s9 =>
              match matchHourColon s9 with
              | none => none
              | some (hds, s10) =>
                match matchMinuteB s10 with
                | none => none
                | some mds =>
                  some (digitsToNat digits, digitsToNat hds, digitsToNat mds)

/-- `parse_comment_for_length_and_time(comment)`: regex match followed by
the range check `0 <= hour <= 23 and 0 <= minute <= 59`; `None` (absent)
comments behave like the empty string (`comment or ""`). -/
def parse_comment_for_length_and_time (comment : Option String) :
    Option (Int × Int × Int) :=
  match matchComment (comment.getD "").data with
  | none => none
  | some (m, h, mi) =>
    if h ≤ 23 ∧ mi ≤ 59 then some ((m : Int), (h : Int), (mi : Int)) else none

/-! ## Data model -/

/-- A remote datapoint (JSON object) as used by the scripts: the fields
`id`, `daystamp`, `timestamp`, `value`, `comment`, `updated_at`, each of
which may be absent.  Numeric JSON values are modelled as rationals; a
non-numeric `value` field behaves like an absent one (both make Python's
`float(...)` conversion fall back to `0.0`). -/
structure DP where
  id : Option String
  daystamp : Option String
  timestamp : Option ℚ
  value : Option ℚ
  comment : Option String
  updated_at : Option String
deriving DecidableEq, Repr

/-- Modelled from the spec: the external datetime/zoneinfo facilities.
`tzDaystamp t` is `daystamp_of(datetime.fromtimestamp(t, utc), LOCAL_TZ)`,
the local `YYYYMMDD` daystamp of an epoch timestamp; `parseIso u` is
`datetime.fromisoformat(u.replace("Z", "+00:00")).timestamp()`, `none`
when the ISO8601 parse fails. -/
structure Env where
  tzDaystamp : ℚ → String
  parseIso : String → Option ℚ

/-- The effective daystamp of a datapoint, as computed by the grouping
loops in `compute_sot_for_range` and `reconcile_history`:
`ds = dp.get("daystamp")`; a missing or falsy (empty) daystamp falls back
to the time-zone daystamp of the raw timestamp; a datapoint with neither
is skipped (`none`). -/
def effDay (env : Env) (dp : DP) : Option String :=
  match dp.daystamp with
  | some ds => if ds = "" then dp.timestamp.map env.tzDaystamp else some ds
  | none => dp.timestamp.map env.tzDaystamp

/-- Lookup in an association list of buckets; a missing key yields `[]`
(the `defaultdict(list)` read `by_day.get(ds, [])`). -/
def lookupGroups (m : List (String × List DP)) (k : String) : List DP :=
  match m with
  | [] => []
  | (k', v) :: rest => if k' = k then v else lookupGroups rest k

/-- `by_day[ds].append(dp)` on a `defaultdict(list)` kept as an insertion
-ordered association list. -/
def appendAt (m : List (String × List DP)) (k : String) (dp : DP) :
    List (String × List DP) :=
  match m with
  | [] => [(k, [dp])]
  | (k', v) :: rest =>
    if k' = k then (k', v ++ [dp]) :: rest else (k', v) :: appendAt rest k dp

/-- The grouping loop shared by `compute_sot_for_range` (lines 221-229)
and `reconcile_history` (lines 270-278): bucket datapoints by effective
daystamp, skipping those with neither daystamp nor timestamp. -/
def groupByDay (env : Env) (dps : List DP) : List (String × List DP) :=
  dps.foldl
    (fun m dp =>
      match effDay env dp with
      | some ds => appendAt m ds dp
      | none => m)
    []

/-- The qualification test applied to one datapoint inside the day loop:
its comment parses and satisfies
`minutes >= MIN_SESSION_MINUTES and qualifies_time(hour, minute)`. -/
def dpQualifies (dp : DP) : Bool :=
  match parse_comment_for_length_and_time dp.comment with
  | none => false
  | some (m, h, mi) => decide (MIN_SESSION_MINUTES ≤ m) && qualifies_time h mi

/-- The inner loop of `compute_sot_for_range` (lines 234-242), also the
body of `compute_today_outcome` in the single-day variant: scan the day's
records, return `1` on the first qualifying one, else `0`. -/
def day_outcome (dps : List DP) : Int :=
  match dps with
  | [] => 0
  | dp :: rest => if dpQualifies dp then 1 else day_outcome rest

/-- `daterange(start, end)`: the inclusive list of days from `start` to
`end` (empty when `start > end`).  Calendar days are modelled as integers
(day numbers); the `YYYYMMDD` rendering `d.strftime("%Y%m%d")` is the
abstract parameter `dayStr` below. -/
def daterange (s e : Int) : List Int :=
  (List.range (e + 1 - s).toNat).map (fun (i : Nat) => s + (i : Int))

/-- Python dict assignment `out[ds] = val` on an insertion-ordered
association list: overwrite in place if the key exists, else append. -/
def dictSet (m : List (String × Int)) (k : String) (v : Int) :
    List (String × Int) :=
  match m with
  | [] => [(k, v)]
  | (k', v') :: rest =>
    if k' = k then (k', v) :: rest else (k', v') :: dictSet rest k v

/-- Dict lookup (`sot_map[ds]` style), `none` when the key is absent. -/
def dictGet (m : List (String × Int)) (k : String) : Option Int :=
  match m with
  | [] => none
  | (k', v) :: rest => if k' = k then some v else dictGet rest k

/-- `compute_sot_for_range(focusmate_dps, start_date, end_date)`:
bucket the source datapoints by effective daystamp, then for every day of
the inclusive range store `0` or `1` according to `day_outcome`.
`dayStr` abstracts `strftime("%Y%m%d")` on dates. -/
def compute_sot_for_range (env : Env) (dayStr : Int → String)
    (focusmate_dps : List DP) (start_date end_date : Int) :
    List (String × Int) :=
  let by_day := groupByDay env focusmate_dps
  (daterange start_date end_date).foldl
    (fun out d =>
      let ds := dayStr d
      dictSet out ds (day_outcome (lookupGroups by_day ds)))
    []

/-! ## Reconciliation (historical-range variant, `scripts/wake_focus_sync.py`) -/

/-- Python's `round` on a real number (banker's rounding, half to even),
composed with `int` — the effect of `int(round(keeper_value))`. -/
def pyRound (q : ℚ) : Int :=
  let f : Int := ⌊q⌋
  if q - (f : ℚ) < 1 / 2 then f
  else if (1 : ℚ) / 2 < q - (f : ℚ) then f + 1
  else if f % 2 = 0 then f else f + 1

/-- `_dp_updated_key(dp)` (lines 111-123): the parsed `updated_at` ISO
timestamp when present and parseable, else the raw numeric `timestamp`
field when present, else `0.0`. -/
def dp_updated_key (env : Env) (dp : DP) : ℚ :=
  match dp.updated_at with
  | some u =>
    match env.parseIso u with
    | some t => t
    | none => match dp.timestamp with | some t => t | none => 0
  | none => match dp.timestamp with | some t => t | none => 0

/-- One step of a stable descending insertion sort: insert `x` before the
first element whose key is strictly smaller, after all elements with a
greater-or-equal key. -/
def insertDesc (key : DP → ℚ) (x : DP) : List DP → List DP
  | [] => [x]
  | y :: ys => if key y < key x then x :: y :: ys else y :: insertDesc key x ys

/-- `sorted(dps, key=key, reverse=True)`: stable sort by descending key
(ties keep original order), realised as a left-to-right insertion sort. -/
def sortDesc (key : DP → ℚ) (l : List DP) : List DP :=
  l.foldl (fun acc x => insertDesc key x acc) []

/-- A mutation issued against the remote goal: `add_datapoint`,
`update_datapoint` or `delete_datapoint`. -/
inductive Call where
  | create (value : Int) (comment : String) (daystamp : String) (requestid : String)
  | update (dpId : String) (value : Int) (comment : String) (daystamp : String)
  | delete (dpId : String)
deriving DecidableEq, Repr

/-- The canonical comment
`f"Auto: SoT=(int(sot_val)) for (ds) (>=50m by 09:15 check)."`
(the braces of the f-string realised by concatenation). -/
def comment_ok (ds : String) (v : Int) : String :=
  "Auto: SoT=" ++ toString v ++ " for " ++ ds ++ " (≥50m by 09:15 check)."

/-- The deterministic create idempotency token
`f"(WAKEANDFOCUS_GOAL)-(ds)-sot-v1"`. -/
def requestid_for (ds : String) : String :=
  WAKEANDFOCUS_GOAL ++ "-" ++ ds ++ "-sot-v1"

/-- The per-day body of the loop in `reconcile_history` (lines 281-317):
create when the day has no datapoints; otherwise keep the newest
(stable-descending by `_dp_updated_key`), delete the extras that carry an
id, and update the keeper when its rounded value or comment differs —
skipped when the keeper has no id. -/
def reconcileDay (env : Env) (ds : String) (sot_val : Int) (dps : List DP) :
    List Call :=
  let comment := comment_ok ds sot_val
  match sortDesc (dp_updated_key env) dps with
  | [] => [Call.create sot_val comment ds (requestid_for ds)]
  | keeper :: extras =>
    let deletes := extras.filterMap (fun dp => dp.id.map Call.delete)
    let keeper_value : ℚ := keeper.value.getD 0
    let needs_value := pyRound keeper_value ≠ sot_val
    let needs_comment := keeper.comment.getD "" ≠ comment
    let updates :=
      if needs_value ∨ needs_comment then
        match keeper.id with
        | some kp_id => [Call.update kp_id sot_val comment ds]
        | none => []
      else []
    deletes ++ updates

/-- Python tuple comparison on `(daystamp, value)` pairs, as used by
`sorted(sot_map.items())`. -/
def pairLt (p q : String × Int) : Bool :=
  decide (p.1 < q.1) || (p.1 = q.1 && decide (p.2 < q.2))

/-- Stable ascending insertion step for `sorted(sot_map.items())`. -/
def insertAsc (x : String × Int) : List (String × Int) → List (String × Int)
  | [] => [x]
  | y :: ys => if pairLt x y then x :: y :: ys else y :: insertAsc x ys

/-- `sorted(sot_map.items())`: stable ascending sort of the SoT items. -/
def sortPairs (l : List (String × Int)) : List (String × Int) :=
  l.foldl (fun acc x => insertAsc x acc) []

/-- The strict-purge loop of `reconcile_history` (lines 321-328): for every
bucket whose daystamp is not a SoT day, delete each datapoint that has an
id. -/
def purge_calls (sot_map : List (String × Int))
    (by_day : List (String × List DP)) : List Call :=
  by_day.foldl
    (fun acc p =>
      if p.1 ∈ sot_map.map Prod.fst then acc
      else acc ++ p.2.filterMap (fun dp => dp.id.map Call.delete))
    []

/-- The per-day loop of `reconcile_history` (lines 281-317): the days of
the SoT mapping in sorted order, each handled by `reconcileDay` on its
bucket. -/
def main_calls (env : Env) (sot_map : List (String × Int))
    (wf_by_day : List (String × List DP)) : List Call :=
  (sortPairs sot_map).foldl
    (fun acc p => acc ++ reconcileDay env p.1 p.2 (lookupGroups wf_by_day p.1))
    []

/-- `reconcile_history(sot_map)` (lines 265-328) on a fetched collection
`wf`: group by effective daystamp, run the per-day reconciliation for
every SoT day in sorted order, then the optional strict purge.  The value
is the sequence of mutation calls issued. -/
def reconcile_history (env : Env) (strict_purge : Bool)
    (sot_map : List (String × Int)) (wf : List DP) : List Call :=
  let wf_by_day := groupByDay env wf
  main_calls env sot_map wf_by_day ++
    (if strict_purge then purge_calls sot_map wf_by_day else [])

/-! ## Remote-apply semantics

The scripts only issue HTTP calls; to state idempotence we also need the
remote side's state transition, which is modelled from the spec. -/

/-- Modelled from the spec: the datapoint the remote API stores for a
successful create — the posted daystamp, value and comment under a fresh
remote id.  The remote also assigns a server-side timestamp and
updated-at, neither of which this model needs (a freshly created day
holds exactly one datapoint, so its recency key is never compared). -/
def mkCreated (fid : String) (v : Int) (c : String) (ds : String) : DP :=
  { id := some fid, daystamp := some ds, timestamp := none,
    value := some (v : ℚ), comment := some c, updated_at := none }

/-- Modelled from the spec: the remote effect of an update call on one
stored datapoint — the fields sent (value, comment, and the daystamp when
non-empty, cf. `update_datapoint`'s `if daystamp:` guard) are overwritten
on the datapoint with the matching id. -/
def applyUpd (i : String) (v : Int) (c : String) (ds : String) (dp : DP) : DP :=
  if dp.id = some i then
    { dp with
      value := some (v : ℚ)
      comment := some c
      daystamp := if ds = "" then dp.daystamp else some ds }
  else dp

/-- Modelled from the spec: replay a sequence of calls against the remote
collection.  `freshId n` is the remote id assigned to the `n`-th create. -/
def applyCalls (freshId : Nat → String) :
    List Call → List DP → Nat → List DP
  | [], wf, _ => wf
  | Call.create v c ds _ :: rest, wf, n =>
    applyCalls freshId rest (wf ++ [mkCreated (freshId n) v c ds]) (n + 1)
  | Call.update i v c ds :: rest, wf, n =>
    applyCalls freshId rest (wf.map (applyUpd i v c ds)) n
  | Call.delete i :: rest, wf, n =>
    applyCalls freshId rest (wf.filter (fun dp => dp.id ≠ some i)) n

/-- The ids targeted by the delete calls of a call sequence. -/
def delIds (calls : List Call) : List String :=
  calls.filterMap (fun c => match c with | Call.delete i => some i | _ => none)

/-- The ids targeted by the update calls of a call sequence. -/
def updIds (calls : List Call) : List String :=
  calls.filterMap (fun c => match c with | Call.update i _ _ _ => some i | _ => none)

/-- The cumulative effect of all update calls of a sequence on one
datapoint. -/
def applyUpds (calls : List Call) (dp : DP) : DP :=
  calls.foldl
    (fun dp c =>
      match c with
      | Call.update i v cm ds => applyUpd i v cm ds dp
      | _ => dp)
    dp

/-- A datapoint survives a call sequence when no delete call targets its
id. -/
def survives (calls : List Call) (dp : DP) : Bool :=
  decide (∀ i ∈ delIds calls, dp.id ≠ some i)

/-- The datapoints added by the create calls of a sequence, with fresh ids
numbered from `n`. -/
def createdOf (freshId : Nat → String) : List Call → Nat → List DP
  | [], _ => []
  | Call.create v c ds _ :: rest, n =>
    mkCreated (freshId n) v c ds :: createdOf freshId rest (n + 1)
  | Call.update _ _ _ _ :: rest, n => createdOf freshId rest n
  | Call.delete _ :: rest, n => createdOf freshId rest n

/-- Number of create calls in a sequence. -/
def numCreates : List Call → Nat
  | [] => 0
  | Call.create _ _ _ _ :: rest => numCreates rest + 1
  | Call.update _ _ _ _ :: rest => numCreates rest
  | Call.delete _ :: rest => numCreates rest

/-! ## Single-day variant (`wake_focus_sync.py` at the repository root) -/

/-- A mutation issued by the single-day variant; its create and update
calls carry no daystamp. -/
inductive CallS where
  | create (value : Int) (comment : String) (requestid : String)
  | update (dpId : String) (value : Int) (comment : String)
  | delete (dpId : String)
deriving DecidableEq, Repr

/-- A Python value used as a sort key by the single-day variant: a string
or a number. -/
inductive PyVal where
  | s (v : String)
  | n (v : ℚ)
deriving DecidableEq, Repr

/-- The single-day variant's sort key
`dp.get("updated_at") or dp.get("timestamp") or 0`: the raw (unparsed)
`updated_at` string when truthy, else the raw timestamp when truthy,
else `0`. -/
def singleKey (dp : DP) : PyVal :=
  match dp.updated_at with
  | some u =>
    if u = "" then
      match dp.timestamp with
      | some t => if t = 0 then PyVal.n 0 else PyVal.n t
      | none => PyVal.n 0
    else PyVal.s u
  | none =>
    match dp.timestamp with
    | some t => if t = 0 then PyVal.n 0 else PyVal.n t
    | none => PyVal.n 0

/-- Python `<` on two key values: defined within one type (string
code-point order, numeric order), a `TypeError` across types. -/
def pyValLt (a b : PyVal) : Except String Bool :=
  match a, b with
  | PyVal.s x, PyVal.s y => Except.ok (decide (x < y))
  | PyVal.n x, PyVal.n y => Except.ok (decide (x < y))
  | _, _ => Except.error "TypeError: unorderable types"

/-- Stable descending insertion for the single-day variant's
`todays.sort(key=..., reverse=True)`; comparison failures propagate.
(When every pair of keys is comparable this computes the same result as
CPython's stable sort; the comparison order, and hence which failure
surfaces first on mixed-type keys, may differ from timsort.) -/
def insertDescE (x : DP) : List DP → Except String (List DP)
  | [] => Except.ok [x]
  | y :: ys => do
    let c ← pyValLt (singleKey y) (singleKey x)
    if c then
      Except.ok (x :: y :: ys)
    else do
      let r ← insertDescE x ys
      Except.ok (y :: r)

/-- The single-day variant's sort, in the error monad. -/
def sortDescE (l : List DP) : Except String (List DP) :=
  l.foldlM (fun acc x => insertDescE x acc) []

/-- Python subscript `dp["id"]`: a `KeyError` when the field is absent. -/
def getIdStrict (dp : DP) : Except String String :=
  match dp.id with
  | some i => Except.ok i
  | none => Except.error "KeyError: id"

/-- `reconcile_beeminder_with_sot(daystamp, sot_value)` (root variant,
lines 180-206) applied to the fetched collection: filter today's
datapoints by the raw daystamp field, sort newest-first, create when
empty; else delete every extra via `dp["id"]` (a `KeyError` aborts), and
update the keeper via `keeper["id"]` when its rounded value or comment
differs. -/
def reconcile_beeminder_with_sot (daystamp : String) (sot_value : Int)
    (dps : List DP) : Except String (List CallS) := do
  let todays := dps.filter (fun dp => dp.daystamp = some daystamp)
  let sorted ← sortDescE todays
  let comment := comment_ok daystamp sot_value
  match sorted with
  | [] => Except.ok [CallS.create sot_value comment (requestid_for daystamp)]
  | keeper :: extras => do
    let dels ← extras.mapM (fun dp => do
      let i ← getIdStrict dp
      pure (CallS.delete i))
    let keeper_value : ℚ := keeper.value.getD 0
    if pyRound keeper_value ≠ sot_value then do
      let i ← getIdStrict keeper
      pure (dels ++ [CallS.update i sot_value comment])
    else if keeper.comment.getD "" ≠ comment then do
      let i ← getIdStrict keeper
      pure (dels ++ [CallS.update i sot_value comment])
    else
      pure dels

/-! ## HTTP error contract of `add_datapoint` -/

/-- An HTTP response: status code and body text. -/
structure HttpResp where
  status : Nat
  body : String
deriving DecidableEq, Repr

/-- `add_datapoint(goal, value, comment, daystamp=..., requestid=...)`
(lines 159-177), modelled on the response the POST receives:
`resp.raise_for_status()` raises for every 4xx/5xx status and the
handler re-raises `RuntimeError(f"POST (goal) (daystamp) -> (status):
(text)")`; otherwise the body is returned. -/
def add_datapoint (goal : String) (_value : Int) (_comment : String)
    (daystamp : String) (_requestid : Option String) (resp : HttpResp) :
    Except String String :=
  if 400 ≤ resp.status ∧ resp.status < 600 then
    Except.error ("POST " ++ goal ++ " " ++ daystamp ++ " -> " ++
      toString resp.status ++ ": " ++ resp.body)
  else
    Except.ok resp.body

/-! ## Range builder (`main`, FULL_HISTORY branch, lines 334-347) -/

/-- The FULL_HISTORY range: `(start_date, end_date)` where `end_date` is
today and `start_date` is the local date of the smallest numeric
timestamp among the fetched source datapoints, or today itself when
there is none.  `tzDate` abstracts
`datetime.fromtimestamp(ts, utc).astimezone(LOCAL_TZ).date()`. -/
def full_history_range (tzDate : ℚ → Int) (today : Int) (fm_all : List DP) :
    Int × Int :=
  let timestamps := fm_all.filterMap DP.timestamp
  match timestamps with
  | [] => (today, today)
  | t :: ts => (tzDate (ts.foldl min t), today)

/-! ## Concrete instances used by witnesses and counterexamples -/

/-- A concrete environment: every timestamp falls on the day `"19700101"`,
no ISO string parses. -/
def envW : Env := ⟨fun _ => "19700101", fun _ => none⟩

/-- The duplicate-create rejection from `test_add_datapoint_duplicate`:
HTTP 422 with body `\x7b"errors":"Duplicate request"\x7d`. -/
def dupResp : HttpResp := ⟨422, "\x7b\"errors\":\"Duplicate request\"\x7d"⟩

/-! ## Theorems -/

/-- Claim C2 (code evaluation): of the four boundary cases stated by the
spec and by `test_qualifies_time_boundaries`, three hold, but
`qualifies_time 5 59` evaluates to `true` — the code has no lower time
bound (`hour < CUTOFF_HOUR` admits every pre-6:00 start), contradicting
the repository's own test, which asserts `not qualifies_time(5, 59)`. -/
theorem c2_qualifies_time_boundary_bug :
    qualifies_time 9 15 = true ∧ qualifies_time 9 16 = false ∧
    qualifies_time 6 0 = true ∧ qualifies_time 5 59 = true := by
  decide

/-- Claim C1 (refuting evaluation): on the duplicate-create rejection
(HTTP 422 with the duplicate-request body, exactly the response staged by
`test_add_datapoint_duplicate`), `add_datapoint` does not return the body
normally: it raises the typed failure carrying the status and body, so
the enclosing run aborts. -/
theorem c1_add_datapoint_raises_on_duplicate :
    add_datapoint "goal" 1 "c" "20250101" (some "r1") dupResp =
      Except.error ("POST goal 20250101 -> 422: " ++ dupResp.body) ∧
    ∀ body, add_datapoint "goal" 1 "c" "20250101" (some "r1") dupResp ≠
      Except.ok body := by
  constructor
  · rfl
  · intro body h
    simp [add_datapoint, dupResp] at h

/-- Lower-bound property of a left fold of `min`. -/
theorem foldl_min_le (ts : List ℚ) (a : ℚ) :
    ts.foldl min a ≤ a ∧ ∀ t ∈ ts, ts.foldl min a ≤ t := by
  induction ts generalizing a with
  | nil => simp
  | cons t ts ih =>
    refine ⟨le_trans (ih (min a t)).1 (min_le_left a t), ?_⟩
    intro t' ht'
    rcases List.mem_cons.mp ht' with h | h
    · subst h
      exact le_trans (ih (min a t')).1 (min_le_right a t')
    · exact (ih (min a t)).2 t' h

/-- A left fold of `min` returns one of its inputs. -/
theorem foldl_min_mem (ts : List ℚ) (a : ℚ) :
    ts.foldl min a = a ∨ ts.foldl min a ∈ ts := by
  induction ts generalizing a with
  | nil => simp
  | cons t ts ih =>
    rcases ih (min a t) with h | h
    · rcases min_cases a t with ⟨hm, _⟩ | ⟨hm, _⟩
      · exact Or.inl (by rw [List.foldl_cons, h, hm])
      · exact Or.inr (by rw [List.foldl_cons, h, hm]; exact List.mem_cons_self t ts)
    · exact Or.inr (List.mem_cons_of_mem t h)

/-- Claim C9: in full-history mode the range ends at today and starts at
the local date of the earliest numeric timestamp among the fetched source
datapoints; with no such timestamp the range degenerates to the single
day today. -/
theorem c9_full_history_range (tzDate : ℚ → Int) (today : Int)
    (fm_all : List DP) :
    (fm_all.filterMap DP.timestamp = [] →
      full_history_range tzDate today fm_all = (today, today)) ∧
    (∀ t0 ts, fm_all.filterMap DP.timestamp = t0 :: ts →
      (full_history_range tzDate today fm_all).2 = today ∧
      ∃ tmin, tmin ∈ fm_all.filterMap DP.timestamp ∧
        (∀ t ∈ fm_all.filterMap DP.timestamp, tmin ≤ t) ∧
        (full_history_range tzDate today fm_all).1 = tzDate tmin) := by
  constructor
  · intro h
    unfold full_history_range
    rw [h]
  · intro t0 ts h
    unfold full_history_range
    rw [h]
    refine ⟨rfl, ts.foldl min t0, ?_, ?_, rfl⟩
    · rcases foldl_min_mem ts t0 with he | he
      · rw [he]; exact List.mem_cons_self t0 ts
      · exact List.mem_cons_of_mem t0 he
    · intro t ht
      rcases List.mem_cons.mp ht with rfl | ht'
      · exact (foldl_min_le ts t).1
      · exact (foldl_min_le ts t0).2 t ht'

/-- Witness for C9 at a concrete input: a source collection with
timestamps 10 and 3 yields the range from `tzDate 3` to today. -/
theorem c9_full_history_range_witness :
    (full_history_range (fun q => q.floor) 20000
        [⟨none, none, some 10, none, none, none⟩,
         ⟨none, none, some 3, none, none, none⟩]).2 = 20000 ∧
    ∃ tmin, tmin ∈ ([⟨none, none, some 10, none, none, none⟩,
         ⟨none, none, some 3, none, none, none⟩] : List DP).filterMap DP.timestamp ∧
      (∀ t ∈ ([⟨none, none, some 10, none, none, none⟩,
         ⟨none, none, some 3, none, none, none⟩] : List DP).filterMap DP.timestamp,
        tmin ≤ t) ∧
      (full_history_range (fun q => q.floor) 20000
        [⟨none, none, some 10, none, none, none⟩,
         ⟨none, none, some 3, none, none, none⟩]).1 = (fun q : ℚ => q.floor) tmin :=
  (c9_full_history_range (fun q => q.floor) 20000
    [⟨none, none, some 10, none, none, none⟩,
     ⟨none, none, some 3, none, none, none⟩]).2 10 [3] rfl

/-! ## Outcome evaluation lemmas -/

/-- `day_outcome` only ever returns `0` or `1`. -/
theorem day_outcome_zero_or_one (dps : List DP) :
    day_outcome dps = 0 ∨ day_outcome dps = 1 := by
  induction dps with
  | nil => exact Or.inl rfl
  | cons dp rest ih =>
    by_cases h : dpQualifies dp
    · exact Or.inr (by simp [day_outcome, h])
    · simpa [day_outcome, h] using ih

/-- `dpQualifies` unfolded to the spec's wording: the comment parses to
minutes ≥ 50 and a start at or before 09:15. -/
theorem dpQualifies_iff (dp : DP) :
    dpQualifies dp = true ↔
      ∃ m h mi, parse_comment_for_length_and_time dp.comment = some (m, h, mi) ∧
        50 ≤ m ∧ (h < 9 ∨ (h = 9 ∧ mi ≤ 15)) := by
  unfold dpQualifies
  rcases hp : parse_comment_for_length_and_time dp.comment with _ | ⟨m, h, mi⟩
  · simp
  · simp only [Bool.and_eq_true, decide_eq_true_eq]
    constructor
    · rintro ⟨hm, hq⟩
      exact ⟨m, h, mi, rfl, hm, by
        simpa [qualifies_time, CUTOFF_HOUR, CUTOFF_MINUTE] using hq⟩
    · rintro ⟨m', h', mi', heq, hm, hq⟩
      obtain ⟨rfl, rfl, rfl⟩ : m = m' ∧ h = h' ∧ mi = mi' := by
        have := heq
        simp only [Option.some.injEq, Prod.mk.injEq] at this
        exact ⟨this.1, this.2.1, this.2.2⟩
      exact ⟨by simpa [MIN_SESSION_MINUTES] using hm,
        by simpa [qualifies_time, CUTOFF_HOUR, CUTOFF_MINUTE] using hq⟩

/-- `day_outcome` is `1` exactly when some record qualifies. -/
theorem day_outcome_eq_one_iff (dps : List DP) :
    day_outcome dps = 1 ↔ ∃ dp ∈ dps, dpQualifies dp = true := by
  induction dps with
  | nil => simp [day_outcome]
  | cons dp rest ih =>
    by_cases h : dpQualifies dp
    · simp [day_outcome, h]
    · have hd : day_outcome (dp :: rest) = day_outcome rest := by
        simp [day_outcome, h]
      rw [hd, ih]
      constructor
      · rintro ⟨x, hx, hq⟩
        exact ⟨x, List.mem_cons_of_mem dp hx, hq⟩
      · rintro ⟨x, hx, hq⟩
        rcases List.mem_cons.mp hx with rfl | hx'
        · exact absurd hq h
        · exact ⟨x, hx', hq⟩

/-- Claim C4: the per-day outcome is `1` iff at least one record's comment
parses to minutes ≥ 50 with a start at or before 09:15 (hour < 9, or
hour = 9 and minute ≤ 15), and the outcome is invariant under any
permutation of the records. -/
theorem c4_day_outcome_exists_and_perm_invariant (dps dps' : List DP)
    (hperm : dps.Perm dps') :
    (day_outcome dps = 1 ↔
      ∃ dp ∈ dps, ∃ m h mi,
        parse_comment_for_length_and_time dp.comment = some (m, h, mi) ∧
        50 ≤ m ∧ (h < 9 ∨ (h = 9 ∧ mi ≤ 15))) ∧
    day_outcome dps = day_outcome dps' := by
  have hiff : ∀ l : List DP, day_outcome l = 1 ↔
      ∃ dp ∈ l, ∃ m h mi,
        parse_comment_for_length_and_time dp.comment = some (m, h, mi) ∧
        50 ≤ m ∧ (h < 9 ∨ (h = 9 ∧ mi ≤ 15)) := by
    intro l
    rw [day_outcome_eq_one_iff]
    constructor
    · rintro ⟨dp, hdp, hq⟩
      exact ⟨dp, hdp, (dpQualifies_iff dp).mp hq⟩
    · rintro ⟨dp, hdp, hq⟩
      exact ⟨dp, hdp, (dpQualifies_iff dp).mpr hq⟩
  refine ⟨hiff dps, ?_⟩
  have hmem : ∀ dp, dp ∈ dps ↔ dp ∈ dps' := fun dp => hperm.mem_iff
  rcases day_outcome_zero_or_one dps with h0 | h1
  · rcases day_outcome_zero_or_one dps' with h0' | h1'
    · rw [h0, h0']
    · exfalso
      obtain ⟨dp, hdp, hq⟩ := (hiff dps').mp h1'
      have : day_outcome dps = 1 :=
        (hiff dps).mpr ⟨dp, (hmem dp).mpr hdp, hq⟩
      rw [h0] at this
      exact absurd this (by decide)
  · obtain ⟨dp, hdp, hq⟩ := (hiff dps).mp h1
    have h1' : day_outcome dps' = 1 :=
      (hiff dps').mpr ⟨dp, (hmem dp).mp hdp, hq⟩
    rw [h1, h1']

/-- A qualifying and a non-qualifying record, for witnesses. -/
def dpQ : DP := ⟨none, none, none, none, some "55 minutes session at 9:10", none⟩

/-- A too-short record, for witnesses. -/
def dpN : DP := ⟨none, none, none, none, some "40 minutes session at 8:00", none⟩

/-- Witness for C4 at a concrete input: the two-record day
`[40m at 8:00, 55m at 9:10]` has outcome `1`, unchanged when the records
are swapped. -/
theorem c4_day_outcome_witness :
    (day_outcome [dpN, dpQ] = 1 ↔
      ∃ dp ∈ [dpN, dpQ], ∃ m h mi,
        parse_comment_for_length_and_time dp.comment = some (m, h, mi) ∧
        50 ≤ m ∧ (h < 9 ∨ (h = 9 ∧ mi ≤ 15))) ∧
    day_outcome [dpN, dpQ] = day_outcome [dpQ, dpN] :=
  c4_day_outcome_exists_and_perm_invariant [dpN, dpQ] [dpQ, dpN]
    (List.Perm.swap dpQ dpN [])

/-! ## Grouping lemmas -/

/-- Looking a key up after an `appendAt`. -/
theorem lookupGroups_appendAt (m : List (String × List DP)) (k k' : String)
    (dp : DP) :
    lookupGroups (appendAt m k dp) k' =
      if k' = k then lookupGroups m k' ++ [dp] else lookupGroups m k' := by
  induction m with
  | nil =>
    by_cases h : k' = k
    · subst h; simp [appendAt, lookupGroups]
    · simp [appendAt, lookupGroups, h, Ne.symm h]
  | cons p rest ih =>
    obtain ⟨k0, v0⟩ := p
    by_cases h0 : k0 = k
    · subst h0
      by_cases h : k' = k0
      · subst h; simp [appendAt, lookupGroups]
      · simp [appendAt, lookupGroups, h, Ne.symm h]
    · by_cases h : k0 = k'
      · subst h
        simp [appendAt, lookupGroups, h0, Ne.symm h0]
      · simp [appendAt, lookupGroups, h0, h, ih]

/-- Looking up a day in the grouping fold, starting from any accumulator. -/
theorem lookupGroups_foldl (env : Env) (ds : String) (l : List DP)
    (m : List (String × List DP)) :
    lookupGroups
      (l.foldl
        (fun m dp =>
          match effDay env dp with
          | some d => appendAt m d dp
          | none => m)
        m) ds =
      lookupGroups m ds ++ l.filter (fun dp => decide (effDay env dp = some ds)) := by
  induction l generalizing m with
  | nil => simp
  | cons dp l ih =>
    rw [List.foldl_cons, ih]
    rcases heff : effDay env dp with _ | d
    · simp [heff]
    · rw [List.filter_cons]
      by_cases h : d = ds
      · subst h
        simp [heff, lookupGroups_appendAt]
      · have : (decide (effDay env dp = some ds)) = false := by
          simp [heff, h]
        simp [heff, lookupGroups_appendAt, this, h, Ne.symm h]

/-- The bucket of a day is exactly the datapoints with that effective
daystamp, in fetch order. -/
theorem lookupGroups_groupByDay (env : Env) (l : List DP) (ds : String) :
    lookupGroups (groupByDay env l) ds =
      l.filter (fun dp => decide (effDay env dp = some ds)) := by
  unfold groupByDay
  rw [lookupGroups_foldl]
  rfl

/-- `lookupGroups` is an entry of the list whenever it is non-empty. -/
theorem lookupGroups_mem (m : List (String × List DP)) (k : String)
    (h : lookupGroups m k ≠ []) : (k, lookupGroups m k) ∈ m := by
  induction m with
  | nil => exact absurd rfl h
  | cons p rest ih =>
    obtain ⟨k0, v0⟩ := p
    by_cases h0 : k0 = k
    · subst h0
      simp only [lookupGroups, if_pos rfl] at h ⊢
      exact List.mem_cons_self _ _
    · simp only [lookupGroups, if_neg h0] at h ⊢
      exact List.mem_cons_of_mem _ (ih h)

/-- Keys of `appendAt`. -/
theorem appendAt_keys (m : List (String × List DP)) (k : String) (dp : DP) :
    (appendAt m k dp).map Prod.fst =
      if k ∈ m.map Prod.fst then m.map Prod.fst else m.map Prod.fst ++ [k] := by
  induction m with
  | nil => simp [appendAt]
  | cons p rest ih =>
    obtain ⟨k0, v0⟩ := p
    by_cases h0 : k0 = k
    · subst h0
      simp [appendAt]
    · simp only [appendAt, if_neg h0, List.map_cons, ih, List.mem_cons]
      by_cases h : k ∈ rest.map Prod.fst
      · simp [h, Ne.symm h0]
      · simp [h, Ne.symm h0]

/-- The grouping fold keeps keys without duplicates. -/
theorem groupByDay_keys_nodup (env : Env) (l : List DP) :
    ((groupByDay env l).map Prod.fst).Nodup := by
  unfold groupByDay
  suffices h : ∀ (l : List DP) (m : List (String × List DP)),
      (m.map Prod.fst).Nodup →
      ((l.foldl
        (fun m dp =>
          match effDay env dp with
          | some d => appendAt m d dp
          | none => m)
        m).map Prod.fst).Nodup by
    exact h l [] (by simp)
  intro l
  induction l with
  | nil => intro m hm; simpa using hm
  | cons dp l ih =>
    intro m hm
    rw [List.foldl_cons]
    rcases heff : effDay env dp with _ | d
    · exact ih m hm
    · refine ih _ ?_
      rw [appendAt_keys]
      by_cases h : d ∈ m.map Prod.fst
      · simpa [h] using hm
      · rw [if_neg h]
        refine List.Nodup.append hm (List.nodup_singleton d) ?_
        intro a ha hd
        rw [List.mem_singleton] at hd
        subst hd
        exact h ha

/-- With keys without duplicates, a list entry is what lookup returns. -/
theorem lookupGroups_of_mem (m : List (String × List DP)) (k : String)
    (v : List DP) (hnd : (m.map Prod.fst).Nodup) (hmem : (k, v) ∈ m) :
    lookupGroups m k = v := by
  induction m with
  | nil => cases hmem
  | cons p rest ih =>
    obtain ⟨k0, v0⟩ := p
    rcases List.mem_cons.mp hmem with h | h
    · obtain ⟨rfl, rfl⟩ : k0 = k ∧ v0 = v := by
        have := h
        simp only [Prod.mk.injEq] at this
        exact ⟨this.1.symm, this.2.symm⟩
      simp [lookupGroups]
    · have hk0 : k0 ≠ k := by
        rintro rfl
        have : k0 ∈ rest.map Prod.fst :=
          List.mem_map.mpr ⟨(k0, v), h, rfl⟩
        exact (List.nodup_cons.mp (by simpa using hnd)).1 this
      simp only [lookupGroups, if_neg hk0]
      exact ih (List.nodup_cons.mp (by simpa using hnd)).2 h

/-- Every entry of `groupByDay` holds exactly the datapoints of its day. -/
theorem groupByDay_entry (env : Env) (l : List DP) (k : String) (v : List DP)
    (hmem : (k, v) ∈ groupByDay env l) :
    v = l.filter (fun dp => decide (effDay env dp = some k)) := by
  rw [← lookupGroups_groupByDay env l k]
  exact (lookupGroups_of_mem _ k v (groupByDay_keys_nodup env l) hmem).symm

/-! ## Range and SoT-computation lemmas -/

/-- Membership in the inclusive day range. -/
theorem mem_daterange (s e d : Int) : d ∈ daterange s e ↔ s ≤ d ∧ d ≤ e := by
  unfold daterange
  rw [List.mem_map]
  constructor
  · rintro ⟨i, hi, rfl⟩
    rw [List.mem_range] at hi
    omega
  · rintro ⟨h1, h2⟩
    refine ⟨(d - s).toNat, ?_, ?_⟩
    · rw [List.mem_range]; omega
    · omega

/-- The day range has no duplicates. -/
theorem daterange_nodup (s e : Int) : (daterange s e).Nodup := by
  unfold daterange
  refine List.Nodup.map ?_ (List.nodup_range _)
  intro a b hab
  simp only at hab
  omega

/-- Setting a fresh key appends it. -/
theorem dictSet_fresh (m : List (String × Int)) (k : String) (v : Int)
    (h : k ∉ m.map Prod.fst) : dictSet m k v = m ++ [(k, v)] := by
  induction m with
  | nil => rfl
  | cons p rest ih =>
    obtain ⟨k0, v0⟩ := p
    have hk0 : k0 ≠ k := by
      intro hh
      exact h (by simp [hh])
    simp only [dictSet, if_neg hk0, List.cons_append, List.cons.injEq, true_and]
    exact ih (fun hh => h (by simp [hh]))

/-- A fold of `dictSet` over fresh, pairwise-distinct keys appends the
corresponding pairs in order. -/
theorem foldl_dictSet_append (g : Int → String) (h : String → Int) :
    ∀ (L : List Int) (acc : List (String × Int)),
    (L.map g).Nodup → (∀ d ∈ L, g d ∉ acc.map Prod.fst) →
    L.foldl (fun out d => dictSet out (g d) (h (g d))) acc =
      acc ++ L.map (fun d => (g d, h (g d))) := by
  intro L
  induction L with
  | nil => intro acc _ _; simp
  | cons d L ih =>
    intro acc hnd hfresh
    rw [List.foldl_cons, dictSet_fresh acc (g d) (h (g d))
      (hfresh d (List.mem_cons_self d L))]
    rw [ih (acc ++ [(g d, h (g d))]) (List.nodup_cons.mp (by simpa using hnd)).2]
    · simp
    · intro d' hd'
      simp only [List.map_append, List.mem_append, List.map_cons]
      rintro (hacc | hnew)
      · exact hfresh d' (List.mem_cons_of_mem d hd') hacc
      · have : g d' = g d := by simpa using hnew
        have hne : g d ∉ L.map g := (List.nodup_cons.mp (by simpa using hnd)).1
        exact hne (this ▸ List.mem_map_of_mem g hd')

/-- `compute_sot_for_range` as an explicit pairing over the day range
(assuming the rendered daystamps of the range are pairwise distinct). -/
theorem compute_sot_eq_map (env : Env) (dayStr : Int → String) (dps : List DP)
    (s e : Int) (hnd : ((daterange s e).map dayStr).Nodup) :
    compute_sot_for_range env dayStr dps s e =
      (daterange s e).map (fun d =>
        (dayStr d, day_outcome (lookupGroups (groupByDay env dps) (dayStr d)))) := by
  unfold compute_sot_for_range
  rw [foldl_dictSet_append dayStr
    (fun ds => day_outcome (lookupGroups (groupByDay env dps) ds))
    (daterange s e) [] hnd (by simp)]
  simp

/-- Lookup in an explicit pairing whose values factor through the key. -/
theorem dictGet_map_factor (g : Int → String) (h : String → Int) :
    ∀ (L : List Int) (d0 : Int), d0 ∈ L →
    dictGet (L.map (fun d => (g d, h (g d)))) (g d0) = some (h (g d0)) := by
  intro L
  induction L with
  | nil => intro d0 hd0; cases hd0
  | cons d L ih =>
    intro d0 hd0
    by_cases hg : g d = g d0
    · simp [dictGet, hg]
    · rcases List.mem_cons.mp hd0 with rfl | hd0'
      · exact absurd rfl hg
      · simp only [List.map_cons, dictGet, if_neg hg]
        exact ih d0 hd0'

/-- No qualifying record means outcome `0`. -/
theorem day_outcome_eq_zero (dps : List DP)
    (h : ∀ dp ∈ dps, dpQualifies dp = false) : day_outcome dps = 0 := by
  rcases day_outcome_zero_or_one dps with h0 | h1
  · exact h0
  · obtain ⟨dp, hdp, hq⟩ := (day_outcome_eq_one_iff dps).mp h1
    rw [h dp hdp] at hq
    cases hq

/-- Claim C10: for `start ≤ end` (and range daystamps rendered injectively,
as `YYYYMMDD` does), the computed SoT mapping has exactly the daystamps of
the inclusive range as keys, in order; every value is `0` or `1`; and a day
none of whose records has a parseable qualifying comment — in particular a
day with no records — maps to `0`. -/
theorem c10_compute_sot_range_shape (env : Env) (dayStr : Int → String)
    (dps : List DP) (s e : Int) (_hse : s ≤ e)
    (hinj : ∀ d d', s ≤ d → d ≤ e → s ≤ d' → d' ≤ e → dayStr d = dayStr d' → d = d') :
    (compute_sot_for_range env dayStr dps s e).map Prod.fst =
      (daterange s e).map dayStr ∧
    (∀ p ∈ compute_sot_for_range env dayStr dps s e, p.2 = 0 ∨ p.2 = 1) ∧
    (∀ d, s ≤ d → d ≤ e →
      (∀ dp ∈ dps, effDay env dp = some (dayStr d) →
        ∀ m hh mi, parse_comment_for_length_and_time dp.comment = some (m, hh, mi) →
          ¬(50 ≤ m ∧ (hh < 9 ∨ (hh = 9 ∧ mi ≤ 15)))) →
      dictGet (compute_sot_for_range env dayStr dps s e) (dayStr d) = some 0) := by
  have hnd : ((daterange s e).map dayStr).Nodup := by
    refine List.Nodup.map_on ?_ (daterange_nodup s e)
    intro x hx y hy hxy
    rw [mem_daterange] at hx hy
    exact hinj x y hx.1 hx.2 hy.1 hy.2 hxy
  rw [compute_sot_eq_map env dayStr dps s e hnd]
  refine ⟨by simp, ?_, ?_⟩
  · intro p hp
    obtain ⟨d, _, rfl⟩ := List.mem_map.mp hp
    exact day_outcome_zero_or_one _
  · intro d hd1 hd2 hnone
    rw [dictGet_map_factor dayStr
      (fun ds => day_outcome (lookupGroups (groupByDay env dps) ds))
      (daterange s e) d ((mem_daterange s e d).mpr ⟨hd1, hd2⟩)]
    congr 1
    apply day_outcome_eq_zero
    intro dp hdp
    rw [lookupGroups_groupByDay] at hdp
    have hmem := List.mem_filter.mp hdp
    have heff : effDay env dp = some (dayStr d) := by
      simpa using hmem.2
    rcases hq : dpQualifies dp with _ | _
    · rfl
    · obtain ⟨m, hh, mi, hp, hm, hq15⟩ := (dpQualifies_iff dp).mp hq
      exact absurd ⟨hm, hq15⟩ (hnone dp hmem.1 heff m hh mi hp)

/-- Witness for C10 at a concrete input: a one-day range with no source
records yields the single key with value `0`. -/
theorem c10_compute_sot_range_witness :
    (compute_sot_for_range envW (fun _ => "20250101") [] 0 0).map Prod.fst =
      (daterange 0 0).map (fun _ => "20250101") ∧
    (∀ p ∈ compute_sot_for_range envW (fun _ => "20250101") [] 0 0,
      p.2 = 0 ∨ p.2 = 1) ∧
    (∀ d, (0 : Int) ≤ d → d ≤ 0 →
      (∀ dp ∈ ([] : List DP), effDay envW dp = some "20250101" →
        ∀ m hh mi, parse_comment_for_length_and_time dp.comment = some (m, hh, mi) →
          ¬(50 ≤ m ∧ (hh < 9 ∨ (hh = 9 ∧ mi ≤ 15)))) →
      dictGet (compute_sot_for_range envW (fun _ => "20250101") [] 0 0)
        "20250101" = some 0) :=
  c10_compute_sot_range_shape envW (fun _ => "20250101") [] 0 0 le_rfl
    (fun d d' h1 h2 h3 h4 _ => by omega)

/-! ## Stable descending sort lemmas -/

/-- Inserting permutes with consing. -/
theorem insertDesc_perm (key : DP → ℚ) (x : DP) (l : List DP) :
    (insertDesc key x l).Perm (x :: l) := by
  induction l with
  | nil => exact List.Perm.refl _
  | cons y ys ih =>
    unfold insertDesc
    by_cases h : key y < key x
    · rw [if_pos h]
    · rw [if_neg h]
      exact (ih.cons y).trans (List.Perm.swap x y ys)

/-- The sort fold permutes with appending. -/
theorem foldl_insertDesc_perm (key : DP → ℚ) :
    ∀ (l acc : List DP),
    (l.foldl (fun acc x => insertDesc key x acc) acc).Perm (acc ++ l) := by
  intro l
  induction l with
  | nil => intro acc; simp
  | cons x l ih =>
    intro acc
    rw [List.foldl_cons]
    refine (ih (insertDesc key x acc)).trans ?_
    have h1 : (insertDesc key x acc ++ l).Perm ((x :: acc) ++ l) :=
      (insertDesc_perm key x acc).append_right l
    refine h1.trans ?_
    simp only [List.cons_append]
    exact (List.perm_middle).symm

/-- The sort is a permutation of its input. -/
theorem sortDesc_perm (key : DP → ℚ) (l : List DP) :
    (sortDesc key l).Perm l :=
  foldl_insertDesc_perm key l []

/-- Inserting below the head keeps the head. -/
theorem insertDesc_cons_of_le (key : DP → ℚ) (x y : DP) (t : List DP)
    (h : key y ≤ key x) :
    insertDesc key y (x :: t) = x :: insertDesc key y t := by
  rw [insertDesc, if_neg (not_lt.mpr h)]

/-- Inserting above everything prepends. -/
theorem insertDesc_eq_cons (key : DP → ℚ) (x : DP) (acc : List DP)
    (h : ∀ z ∈ acc, key z < key x) :
    insertDesc key x acc = x :: acc := by
  cases acc with
  | nil => rfl
  | cons y ys =>
    unfold insertDesc
    rw [if_pos (h y (List.mem_cons_self y ys))]

/-- Folding further inserts below a maximal head keeps the head, and the
tail stays a permutation of the rest. -/
theorem foldl_insertDesc_head (key : DP → ℚ) (x : DP) :
    ∀ (l2 rest : List DP), (∀ y ∈ l2, key y ≤ key x) →
    ∃ t, (l2.foldl (fun acc y => insertDesc key y acc) (x :: rest)) = x :: t ∧
      t.Perm (rest ++ l2) := by
  intro l2
  induction l2 with
  | nil => intro rest _; exact ⟨rest, rfl, by simp⟩
  | cons y ys ih =>
    intro rest hle
    rw [List.foldl_cons,
      insertDesc_cons_of_le key x y rest (hle y (List.mem_cons_self y ys))]
    obtain ⟨t, ht, hperm⟩ :=
      ih (insertDesc key y rest) (fun z hz => hle z (List.mem_cons_of_mem y hz))
    refine ⟨t, ht, hperm.trans ?_⟩
    have h1 : (insertDesc key y rest ++ ys).Perm ((y :: rest) ++ ys) :=
      (insertDesc_perm key y rest).append_right ys
    refine h1.trans ?_
    simp only [List.cons_append]
    exact List.perm_middle.symm

/-- Sorting a list around its first maximum: the head of the sort is the
first element attaining the maximal key, and the tail is a permutation of
the rest. -/
theorem sortDesc_of_firstMax (key : DP → ℚ) (x : DP) (l1 l2 : List DP)
    (hlt : ∀ y ∈ l1, key y < key x)
    (hle : ∀ y ∈ l1 ++ x :: l2, key y ≤ key x) :
    ∃ t, sortDesc key (l1 ++ x :: l2) = x :: t ∧ t.Perm (l1 ++ l2) := by
  unfold sortDesc
  rw [List.foldl_append, List.foldl_cons]
  have hacc : (l1.foldl (fun acc x => insertDesc key x acc) []).Perm l1 := by
    simpa using foldl_insertDesc_perm key l1 []
  have hmem : ∀ z ∈ l1.foldl (fun acc x => insertDesc key x acc) [],
      key z < key x := fun z hz => hlt z (hacc.mem_iff.mp hz)
  rw [insertDesc_eq_cons key x _ hmem]
  obtain ⟨t, ht, hperm⟩ := foldl_insertDesc_head key x l2 _
    (fun y hy => hle y (by simp [hy]))
  refine ⟨t, ht, hperm.trans ?_⟩
  exact hacc.append_right l2

/-- Every non-empty list splits at its first maximum. -/
theorem exists_firstMax (key : DP → ℚ) :
    ∀ (l : List DP), l ≠ [] →
    ∃ x l1 l2, l = l1 ++ x :: l2 ∧ (∀ y ∈ l1, key y < key x) ∧
      (∀ y ∈ l, key y ≤ key x) := by
  intro l
  induction l with
  | nil => intro h; exact absurd rfl h
  | cons a rest ih =>
    intro _
    rcases eq_or_ne rest [] with rfl | hne
    · exact ⟨a, [], [], rfl, by simp, by simp⟩
    · obtain ⟨x, l1, l2, heq, hlt, hle⟩ := ih hne
      by_cases hax : key x ≤ key a
      · refine ⟨a, [], rest, rfl, by simp, ?_⟩
        intro y hy
        rcases List.mem_cons.mp hy with rfl | hy'
        · exact le_rfl
        · exact le_trans (hle y hy') hax
      · refine ⟨x, a :: l1, l2, by rw [heq]; rfl, ?_, ?_⟩
        · intro y hy
          rcases List.mem_cons.mp hy with rfl | hy'
          · exact lt_of_not_le hax
          · exact hlt y hy'
        · intro y hy
          rcases List.mem_cons.mp hy with rfl | hy'
          · exact le_of_lt (lt_of_not_le hax)
          · exact hle y (heq ▸ hy')

/-- Full characterisation of the head and tail of the stable descending
sort of a non-empty list. -/
theorem sortDesc_spec (key : DP → ℚ) (l : List DP) (h : l ≠ []) :
    ∃ x t l1 l2, sortDesc key l = x :: t ∧ l = l1 ++ x :: l2 ∧
      (∀ y ∈ l1, key y < key x) ∧ (∀ y ∈ l, key y ≤ key x) ∧
      t.Perm (l1 ++ l2) := by
  obtain ⟨x, l1, l2, heq, hlt, hle⟩ := exists_firstMax key l h
  obtain ⟨t, ht, hperm⟩ := sortDesc_of_firstMax key x l1 l2 hlt (heq ▸ hle)
  exact ⟨x, t, l1, l2, heq ▸ ht, heq, hlt, hle, hperm⟩

/-! ## Call-list bookkeeping lemmas -/

/-- `delIds` distributes over append. -/
theorem delIds_append (a b : List Call) :
    delIds (a ++ b) = delIds a ++ delIds b :=
  List.filterMap_append a b _

/-- A create contributes no delete id. -/
theorem delIds_cons_create (v : Int) (c ds r : String) (cs : List Call) :
    delIds (Call.create v c ds r :: cs) = delIds cs := by
  simp [delIds, List.filterMap_cons]

/-- An update contributes no delete id. -/
theorem delIds_cons_update (i : String) (v : Int) (c ds : String)
    (cs : List Call) :
    delIds (Call.update i v c ds :: cs) = delIds cs := by
  simp [delIds, List.filterMap_cons]

/-- A delete contributes its id. -/
theorem delIds_cons_delete (i : String) (cs : List Call) :
    delIds (Call.delete i :: cs) = i :: delIds cs := by
  simp [delIds, List.filterMap_cons]

/-- The delete calls built from a record list target exactly the present
ids. -/
theorem delIds_of_deletes (l : List DP) :
    delIds (l.filterMap (fun dp => dp.id.map Call.delete)) =
      l.filterMap DP.id := by
  induction l with
  | nil => rfl
  | cons dp rest ih =>
    rcases hid : dp.id with _ | i
    · simp [List.filterMap_cons, hid, ih]
    · simp [List.filterMap_cons, hid, delIds_cons_delete, ih]

/-- Rounding an integer returns it. -/
theorem pyRound_intCast (n : Int) : pyRound ((n : ℚ)) = n := by
  simp only [pyRound, Int.floor_intCast, sub_self]
  norm_num

/-- Rounding zero. -/
theorem pyRound_zero : pyRound 0 = 0 := by
  simpa using pyRound_intCast 0

/-- Rounding one. -/
theorem pyRound_one : pyRound 1 = 1 := by
  simpa using pyRound_intCast 1

/-- A fold of guarded appends is a bind of guarded contributions. -/
theorem foldl_guard_append {α β : Type} (c : α → Bool) (f : α → List β) :
    ∀ (l : List α) (acc : List β),
    l.foldl (fun acc x => if c x then acc else acc ++ f x) acc =
      acc ++ l.flatMap (fun x => if c x then [] else f x) := by
  intro l
  induction l with
  | nil => intro acc; simp
  | cons x l ih =>
    intro acc
    rw [List.foldl_cons]
    by_cases h : c x
    · rw [if_pos h, ih, List.flatMap_cons, if_pos h, List.nil_append]
    · rw [if_neg h, ih, List.flatMap_cons, if_neg h, List.append_assoc]

/-- `purge_calls` as a flat map over the buckets. -/
theorem purge_calls_eq_bind (sot_map : List (String × Int))
    (by_day : List (String × List DP)) :
    purge_calls sot_map by_day =
      by_day.flatMap (fun p =>
        if p.1 ∈ sot_map.map Prod.fst then []
        else p.2.filterMap (fun dp => dp.id.map Call.delete)) := by
  unfold purge_calls
  rw [show (fun (acc : List Call) (p : String × List DP) =>
      if p.1 ∈ sot_map.map Prod.fst then acc
      else acc ++ p.2.filterMap (fun dp => dp.id.map Call.delete)) =
    (fun acc p =>
      if (decide (p.1 ∈ sot_map.map Prod.fst)) = true then acc
      else acc ++ p.2.filterMap (fun dp => dp.id.map Call.delete)) from by
      funext acc p
      by_cases h : p.1 ∈ sot_map.map Prod.fst <;> simp [h]]
  rw [foldl_guard_append (fun p => decide (p.1 ∈ sot_map.map Prod.fst)) _ by_day []]
  simp only [List.nil_append, decide_eq_true_eq]

/-- With pairwise-distinct ids, an id determines its datapoint. -/
theorem eq_of_same_id (wf : List DP) (hids : (wf.filterMap DP.id).Nodup) :
    ∀ a ∈ wf, ∀ b ∈ wf, ∀ i, a.id = some i → b.id = some i → a = b := by
  induction wf with
  | nil => intro a ha; cases ha
  | cons x rest ih =>
    intro a ha b hb i hai hbi
    rcases hx : x.id with _ | j
    · have hnd : (rest.filterMap DP.id).Nodup := by
        simpa [List.filterMap_cons, hx] using hids
      rcases List.mem_cons.mp ha with rfl | ha'
      · rw [hai] at hx; cases hx
      · rcases List.mem_cons.mp hb with rfl | hb'
        · rw [hbi] at hx; cases hx
        · exact ih hnd a ha' b hb' i hai hbi
    · have hpair : j ∉ rest.filterMap DP.id ∧ (rest.filterMap DP.id).Nodup := by
        have h2 := hids
        rw [List.filterMap_cons, hx] at h2
        exact List.nodup_cons.mp h2
      rcases List.mem_cons.mp ha with rfl | ha'
      · rcases List.mem_cons.mp hb with rfl | hb'
        · rfl
        · exfalso
          rw [hx] at hai
          injection hai with hji
          subst hji
          exact hpair.1 (List.mem_filterMap.mpr ⟨b, hb', hbi⟩)
      · rcases List.mem_cons.mp hb with rfl | hb'
        · exfalso
          rw [hx] at hbi
          injection hbi with hji
          subst hji
          exact hpair.1 (List.mem_filterMap.mpr ⟨a, ha', hai⟩)
        · exact ih hpair.2 a ha' b hb' i hai hbi

/-! ## Claims C5, C6, C8 -/

/-- Keeper of the C5 example: id `"id1"`, newest (timestamp 10), already
matching the SoT. -/
def dpK5 : DP :=
  ⟨some "id1", some "20250101", some 10, some 1,
    some (comment_ok "20250101" 1), none⟩

/-- Extra of the C5 example: older (timestamp 5) and with no id. -/
def dpE5 : DP := ⟨none, some "20250101", some 5, some 1, none, none⟩

/-- Claim C5 (counterexample): with two datapoints for the daystamp, the
older one (`dpE5`) is an extra, yet no call at all is issued, because the
extra has no remote id — refuting "all other records ... are deleted". -/
theorem c5_idless_extra_not_deleted :
    sortDesc (dp_updated_key envW) [dpK5, dpE5] = [dpK5, dpE5] ∧
    reconcileDay envW "20250101" 1 [dpK5, dpE5] = [] := by
  constructor
  · rfl
  · unfold reconcileDay
    rw [show sortDesc (dp_updated_key envW) [dpK5, dpE5] = [dpK5, dpE5] from rfl]
    dsimp only
    have hval : pyRound (dpK5.value.getD 0) = 1 := by
      rw [show dpK5.value.getD 0 = (1 : ℚ) from rfl, pyRound_one]
    have hc : ¬(pyRound (dpK5.value.getD 0) ≠ (1 : Int) ∨
        dpK5.comment.getD "" ≠ comment_ok "20250101" 1) := by
      push_neg
      exact ⟨hval, rfl⟩
    rw [if_neg hc]
    rfl

/-- Claim C5 (amended): for a non-empty day bucket, the keeper — the head
of the stable descending sort — is a record of the bucket maximal under
the recency key `_dp_updated_key` (parsed updated-at, else raw timestamp,
else zero); all other records are the extras, and the day's delete calls
target exactly the ids present among the extras (id-less extras are
skipped). -/
theorem c5_keeper_maximal_extras_deleted (env : Env) (ds : String) (v : Int)
    (dps : List DP) (h : dps ≠ []) :
    ∃ keeper extras,
      sortDesc (dp_updated_key env) dps = keeper :: extras ∧
      keeper ∈ dps ∧
      (keeper :: extras).Perm dps ∧
      (∀ dp ∈ dps, dp_updated_key env dp ≤ dp_updated_key env keeper) ∧
      delIds (reconcileDay env ds v dps) = extras.filterMap DP.id := by
  obtain ⟨x, t, l1, l2, hsort, heq, _, hle, _⟩ :=
    sortDesc_spec (dp_updated_key env) dps h
  refine ⟨x, t, hsort, ?_, ?_, hle, ?_⟩
  · rw [heq]
    exact List.mem_append.mpr (Or.inr (List.mem_cons_self x l2))
  · rw [← hsort]
    exact sortDesc_perm (dp_updated_key env) dps
  · unfold reconcileDay
    rw [hsort]
    dsimp only
    rw [delIds_append, delIds_of_deletes]
    have hupd : delIds
        (if pyRound (x.value.getD 0) ≠ v ∨ x.comment.getD "" ≠ comment_ok ds v then
          match x.id with
          | some kp_id => [Call.update kp_id v (comment_ok ds v) ds]
          | none => []
        else []) = [] := by
      by_cases hc : pyRound (x.value.getD 0) ≠ v ∨ x.comment.getD "" ≠ comment_ok ds v
      · rw [if_pos hc]
        rcases x.id with _ | kid <;> rfl
      · rw [if_neg hc]; rfl
    rw [hupd, List.append_nil]

/-- Witness for the amended C5 at a concrete input: on `[dpK5, dpE5]` the
keeper is `dpK5` and no delete id is collected (the only extra is
id-less). -/
theorem c5_keeper_maximal_witness :
    ∃ keeper extras,
      sortDesc (dp_updated_key envW) [dpK5, dpE5] = keeper :: extras ∧
      keeper ∈ [dpK5, dpE5] ∧
      (keeper :: extras).Perm [dpK5, dpE5] ∧
      (∀ dp ∈ [dpK5, dpE5],
        dp_updated_key envW dp ≤ dp_updated_key envW keeper) ∧
      delIds (reconcileDay envW "20250101" 1 [dpK5, dpE5]) =
        [dpK5, dpE5].tail.filterMap DP.id := by
  obtain ⟨keeper, extras, h1, h2, h3, h4, h5⟩ :=
    c5_keeper_maximal_extras_deleted envW "20250101" 1 [dpK5, dpE5]
      (by simp)
  have hx : keeper = dpK5 ∧ extras = [dpE5] := by
    have : sortDesc (dp_updated_key envW) [dpK5, dpE5] = [dpK5, dpE5] := by rfl
    rw [this] at h1
    exact ⟨(List.cons.injEq _ _ _ _ ▸ h1).1.symm, (List.cons.injEq _ _ _ _ ▸ h1).2.symm⟩
  exact ⟨keeper, extras, h1, h2, h3, h4, by rw [h5, hx.2]; rfl⟩

/-- The C6 counterexample keeper: value `0`, no remote id. -/
def dpU6 : DP := ⟨none, some "20250101", some 10, some 0, some "x", none⟩

/-- Claim C6 (counterexample): a keeper whose rounded value (0) differs
from the SoT value (1) but which lacks a remote id receives no update
call at all — refuting the "if and only if" as stated. -/
theorem c6_idless_keeper_not_updated :
    pyRound (dpU6.value.getD 0) ≠ (1 : Int) ∧
    reconcileDay envW "20250101" 1 [dpU6] = [] := by
  have hval : pyRound (dpU6.value.getD 0) = 0 := by
    rw [show dpU6.value.getD 0 = (0 : ℚ) from rfl, pyRound_zero]
  constructor
  · rw [hval]; decide
  · unfold reconcileDay
    rw [show sortDesc (dp_updated_key envW) [dpU6] = [dpU6] from rfl]
    dsimp only
    by_cases hc : pyRound (dpU6.value.getD 0) ≠ (1 : Int) ∨
        dpU6.comment.getD "" ≠ comment_ok "20250101" 1
    · rw [if_pos hc]; rfl
    · rw [if_neg hc]; rfl

/-- Claim C6 (amended): after the extras' deletes, a keeper that carries a
remote id receives exactly one update call — with the SoT value and the
canonical comment together — when its rounded value or comment differs,
and none when both match; a keeper without an id receives no update call
(value and comment are never corrected by separate calls). -/
theorem c6_single_update_iff (env : Env) (ds : String) (v : Int)
    (dps : List DP) (keeper : DP) (extras : List DP)
    (hsort : sortDesc (dp_updated_key env) dps = keeper :: extras) :
    (∀ kid, keeper.id = some kid →
      ((pyRound (keeper.value.getD 0) ≠ v ∨
          keeper.comment.getD "" ≠ comment_ok ds v) →
        reconcileDay env ds v dps =
          extras.filterMap (fun dp => dp.id.map Call.delete) ++
            [Call.update kid v (comment_ok ds v) ds]) ∧
      ((pyRound (keeper.value.getD 0) = v ∧
          keeper.comment.getD "" = comment_ok ds v) →
        reconcileDay env ds v dps =
          extras.filterMap (fun dp => dp.id.map Call.delete))) ∧
    (keeper.id = none →
      reconcileDay env ds v dps =
        extras.filterMap (fun dp => dp.id.map Call.delete)) := by
  unfold reconcileDay
  rw [hsort]
  dsimp only
  constructor
  · intro kid hkid
    constructor
    · intro hdiff
      rw [if_pos hdiff, hkid]
    · rintro ⟨h1, h2⟩
      rw [if_neg (by simp [h1, h2]), List.append_nil]
  · intro hnone
    by_cases hdiff : pyRound (keeper.value.getD 0) ≠ v ∨
        keeper.comment.getD "" ≠ comment_ok ds v
    · rw [if_pos hdiff, hnone, List.append_nil]
    · rw [if_neg hdiff, List.append_nil]

/-- The C6 witness keeper: id `"k1"`, value `0`, stale comment. -/
def dpW6 : DP := ⟨some "k1", some "20250101", some 10, some 0, some "x", none⟩

/-- Witness for the amended C6 at a concrete input: a lone keeper with id
`"k1"` and differing value receives exactly the single combined update. -/
theorem c6_single_update_witness :
    (∀ kid, dpW6.id = some kid →
      ((pyRound (dpW6.value.getD 0) ≠ (1 : Int) ∨
          dpW6.comment.getD "" ≠ comment_ok "20250101" 1) →
        reconcileDay envW "20250101" 1 [dpW6] =
          ([] : List DP).filterMap (fun dp => dp.id.map Call.delete) ++
            [Call.update kid 1 (comment_ok "20250101" 1) "20250101"]) ∧
      ((pyRound (dpW6.value.getD 0) = (1 : Int) ∧
          dpW6.comment.getD "" = comment_ok "20250101" 1) →
        reconcileDay envW "20250101" 1 [dpW6] =
          ([] : List DP).filterMap (fun dp => dp.id.map Call.delete))) ∧
    (dpW6.id = none →
      reconcileDay envW "20250101" 1 [dpW6] =
        ([] : List DP).filterMap (fun dp => dp.id.map Call.delete)) :=
  c6_single_update_iff envW "20250101" 1 [dpW6] dpW6 [] rfl

/-- The C8 counterexample datapoint: daystamp `"20240101"`, no remote id. -/
def dpP8 : DP := ⟨none, some "20240101", none, some 1, none, none⟩

/-- Membership in the purge calls: a delete for an id is issued exactly
when some fetched datapoint carries that id and lives on an effective
daystamp absent from the SoT mapping. -/
theorem purge_mem_iff (env : Env) (sot_map : List (String × Int))
    (wf : List DP) :
    ∀ i, Call.delete i ∈ purge_calls sot_map (groupByDay env wf) ↔
      ∃ dp ∈ wf, dp.id = some i ∧
        ∃ ds, effDay env dp = some ds ∧ ds ∉ sot_map.map Prod.fst := by
  intro i
  rw [purge_calls_eq_bind, List.mem_flatMap]
  constructor
  · rintro ⟨p, hp, hin⟩
    obtain ⟨k, v⟩ := p
    by_cases hk : k ∈ sot_map.map Prod.fst
    · rw [if_pos hk] at hin; cases hin
    · rw [if_neg hk] at hin
      obtain ⟨dp, hdp, hmap⟩ := List.mem_filterMap.mp hin
      obtain ⟨j, hj, hdel⟩ := Option.map_eq_some'.mp hmap
      have hji : j = i := by
        injection hdel
      subst hji
      have hv := groupByDay_entry env wf k v hp
      rw [hv] at hdp
      have hsplit := List.mem_filter.mp hdp
      refine ⟨dp, hsplit.1, hj, k, ?_, hk⟩
      simpa using hsplit.2
  · rintro ⟨dp, hdp, hid, ds, heff, hds⟩
    have hbucket : dp ∈ lookupGroups (groupByDay env wf) ds := by
      rw [lookupGroups_groupByDay]
      exact List.mem_filter.mpr ⟨hdp, by simp [heff]⟩
    have hne : lookupGroups (groupByDay env wf) ds ≠ [] := by
      intro hnil
      rw [hnil] at hbucket
      cases hbucket
    refine ⟨(ds, lookupGroups (groupByDay env wf) ds),
      lookupGroups_mem _ ds hne, ?_⟩
    rw [if_neg hds]
    exact List.mem_filterMap.mpr ⟨dp, hbucket, by rw [hid]; rfl⟩

/-- Claim C8 (counterexample): with strict purge enabled and the SoT
mapping `[("20250101", 0)]`, the datapoint `dpP8` has effective daystamp
`"20240101"`, absent from the mapping, yet the run issues no delete call
at all, because `dpP8` has no remote id — refuting "deletes every target
datapoint whose daystamp is absent". -/
theorem c8_idless_purge_skipped :
    effDay envW dpP8 = some "20240101" ∧
    "20240101" ∉ ([("20250101", 0)] : List (String × Int)).map Prod.fst ∧
    delIds (reconcile_history envW true [("20250101", 0)] [dpP8]) = [] := by
  refine ⟨rfl, by decide, ?_⟩
  decide

/-- Claim C8 (amended): with strict purge enabled, the purge section
issues a delete for an id exactly when some fetched datapoint carries
that id and has an effective daystamp absent from the SoT mapping; with
pairwise-distinct remote ids no datapoint whose effective daystamp is a
SoT day is targeted; and with the flag disabled the run consists of the
per-day calls only (no purge deletion occurs). -/
theorem c8_strict_purge_scope (env : Env) (sot_map : List (String × Int))
    (wf : List DP) (hids : (wf.filterMap DP.id).Nodup) :
    (∀ i, Call.delete i ∈ purge_calls sot_map (groupByDay env wf) ↔
      ∃ dp ∈ wf, dp.id = some i ∧
        ∃ ds, effDay env dp = some ds ∧ ds ∉ sot_map.map Prod.fst) ∧
    (∀ dp ∈ wf, ∀ i, dp.id = some i →
      (∃ ds, effDay env dp = some ds ∧ ds ∈ sot_map.map Prod.fst) →
      Call.delete i ∉ purge_calls sot_map (groupByDay env wf)) ∧
    reconcile_history env false sot_map wf =
      main_calls env sot_map (groupByDay env wf) := by
  have hmem := purge_mem_iff env sot_map wf
  refine ⟨hmem, ?_, ?_⟩
  · rintro dp hdp i hid ⟨ds, heff, hds⟩ hdel
    obtain ⟨dp', hdp', hid', ds', heff', hds'⟩ := (hmem i).mp hdel
    have : dp = dp' := eq_of_same_id wf hids dp hdp dp' hdp' i hid hid'
    subst this
    rw [heff] at heff'
    have : ds = ds' := by injection heff'
    subst this
    exact hds' hds
  · simp [reconcile_history]

/-- Witness for the amended C8 at a concrete input: one id-bearing
datapoint on an absent day is purged, none on a present day is, and with
the flag off the calls are the per-day calls only. -/
theorem c8_strict_purge_witness :
    (∀ i, Call.delete i ∈
        purge_calls [("20250101", 0)] (groupByDay envW
          [⟨some "id9", some "20240101", none, some 1, none, none⟩]) ↔
      ∃ dp ∈ [(⟨some "id9", some "20240101", none, some 1, none, none⟩ : DP)],
        dp.id = some i ∧
        ∃ ds, effDay envW dp = some ds ∧
          ds ∉ ([("20250101", 0)] : List (String × Int)).map Prod.fst) ∧
    (∀ dp ∈ [(⟨some "id9", some "20240101", none, some 1, none, none⟩ : DP)],
      ∀ i, dp.id = some i →
      (∃ ds, effDay envW dp = some ds ∧
        ds ∈ ([("20250101", 0)] : List (String × Int)).map Prod.fst) →
      Call.delete i ∉
        purge_calls [("20250101", 0)] (groupByDay envW
          [⟨some "id9", some "20240101", none, some 1, none, none⟩])) ∧
    reconcile_history envW false [("20250101", 0)]
        [⟨some "id9", some "20240101", none, some 1, none, none⟩] =
      main_calls envW [("20250101", 0)] (groupByDay envW
        [⟨some "id9", some "20240101", none, some 1, none, none⟩]) :=
  c8_strict_purge_scope envW [("20250101", 0)]
    [⟨some "id9", some "20240101", none, some 1, none, none⟩] (by decide)

/-! ## Claim C7 -/

/-- Claim C7 (code evaluation): in the single-day variant, an extra
selected for deletion that lacks the id field makes the run raise
(`dp["id"]` is a `KeyError`), instead of being skipped; the
historical-range variant on the same records issues no call at all and
completes (the skip the claim describes). -/
theorem c7_missing_id_fatal_in_single_day :
    reconcile_beeminder_with_sot "20250101" 1 [dpK5, dpE5] =
      Except.error "KeyError: id" ∧
    reconcileDay envW "20250101" 1 [dpK5, dpE5] = [] := by
  constructor
  · rfl
  · unfold reconcileDay
    rw [show sortDesc (dp_updated_key envW) [dpK5, dpE5] = [dpK5, dpE5] from rfl]
    dsimp only
    have hval : pyRound (dpK5.value.getD 0) = 1 := by
      rw [show dpK5.value.getD 0 = (1 : ℚ) from rfl, pyRound_one]
    have hc : ¬(pyRound (dpK5.value.getD 0) ≠ (1 : Int) ∨
        dpK5.comment.getD "" ≠ comment_ok "20250101" 1) := by
      push_neg
      exact ⟨hval, rfl⟩
    rw [if_neg hc]
    rfl

/-! ## Replay normal form

Characterising the remote collection after a call sequence is replayed. -/

/-- `updIds` cons equations. -/
theorem updIds_cons_create (v : Int) (c ds r : String) (cs : List Call) :
    updIds (Call.create v c ds r :: cs) = updIds cs := by
  simp [updIds, List.filterMap_cons]

/-- `updIds` skips deletes. -/
theorem updIds_cons_delete (i : String) (cs : List Call) :
    updIds (Call.delete i :: cs) = updIds cs := by
  simp [updIds, List.filterMap_cons]

/-- `updIds` collects update targets. -/
theorem updIds_cons_update (i : String) (v : Int) (c ds : String)
    (cs : List Call) :
    updIds (Call.update i v c ds :: cs) = i :: updIds cs := by
  simp [updIds, List.filterMap_cons]

/-- An update keeps the id of a datapoint. -/
theorem applyUpd_id (i : String) (v : Int) (c ds : String) (dp : DP) :
    (applyUpd i v c ds dp).id = dp.id := by
  unfold applyUpd
  by_cases h : dp.id = some i
  · rw [if_pos h]
  · rw [if_neg h]

/-- An update keeps the timestamp of a datapoint. -/
theorem applyUpd_timestamp (i : String) (v : Int) (c ds : String) (dp : DP) :
    (applyUpd i v c ds dp).timestamp = dp.timestamp := by
  unfold applyUpd
  by_cases h : dp.id = some i
  · rw [if_pos h]
  · rw [if_neg h]

/-- An update keeps the updated-at of a datapoint. -/
theorem applyUpd_updated_at (i : String) (v : Int) (c ds : String) (dp : DP) :
    (applyUpd i v c ds dp).updated_at = dp.updated_at := by
  unfold applyUpd
  by_cases h : dp.id = some i
  · rw [if_pos h]
  · rw [if_neg h]

/-- A non-matching update is the identity. -/
theorem applyUpd_of_ne (i : String) (v : Int) (c ds : String) (dp : DP)
    (h : dp.id ≠ some i) : applyUpd i v c ds dp = dp := by
  unfold applyUpd
  rw [if_neg h]

/-- `applyUpds` cons equations (non-update calls are skipped). -/
theorem applyUpds_cons_create (v : Int) (c ds r : String) (cs : List Call)
    (dp : DP) :
    applyUpds (Call.create v c ds r :: cs) dp = applyUpds cs dp := rfl

/-- `applyUpds` skips deletes. -/
theorem applyUpds_cons_delete (i : String) (cs : List Call) (dp : DP) :
    applyUpds (Call.delete i :: cs) dp = applyUpds cs dp := rfl

/-- `applyUpds` applies the head update first. -/
theorem applyUpds_cons_update (i : String) (v : Int) (c ds : String)
    (cs : List Call) (dp : DP) :
    applyUpds (Call.update i v c ds :: cs) dp =
      applyUpds cs (applyUpd i v c ds dp) := rfl

/-- The cumulative updates keep the id. -/
theorem applyUpds_id (calls : List Call) :
    ∀ dp : DP, (applyUpds calls dp).id = dp.id := by
  induction calls with
  | nil => intro dp; rfl
  | cons c cs ih =>
    intro dp
    cases c with
    | create v cm ds r => rw [applyUpds_cons_create]; exact ih dp
    | update i v cm ds =>
      rw [applyUpds_cons_update, ih, applyUpd_id]
    | delete i => rw [applyUpds_cons_delete]; exact ih dp

/-- The cumulative updates keep the timestamp. -/
theorem applyUpds_timestamp (calls : List Call) :
    ∀ dp : DP, (applyUpds calls dp).timestamp = dp.timestamp := by
  induction calls with
  | nil => intro dp; rfl
  | cons c cs ih =>
    intro dp
    cases c with
    | create v cm ds r => rw [applyUpds_cons_create]; exact ih dp
    | update i v cm ds =>
      rw [applyUpds_cons_update, ih, applyUpd_timestamp]
    | delete i => rw [applyUpds_cons_delete]; exact ih dp

/-- The cumulative updates keep the updated-at. -/
theorem applyUpds_updated_at (calls : List Call) :
    ∀ dp : DP, (applyUpds calls dp).updated_at = dp.updated_at := by
  induction calls with
  | nil => intro dp; rfl
  | cons c cs ih =>
    intro dp
    cases c with
    | create v cm ds r => rw [applyUpds_cons_create]; exact ih dp
    | update i v cm ds =>
      rw [applyUpds_cons_update, ih, applyUpd_updated_at]
    | delete i => rw [applyUpds_cons_delete]; exact ih dp

/-- The cumulative updates keep the recency key. -/
theorem applyUpds_key (env : Env) (calls : List Call) (dp : DP) :
    dp_updated_key env (applyUpds calls dp) = dp_updated_key env dp := by
  unfold dp_updated_key
  rw [applyUpds_updated_at, applyUpds_timestamp]

/-- A datapoint not targeted by any update is unchanged. -/
theorem applyUpds_of_not_mem (calls : List Call) :
    ∀ dp : DP, (∀ i ∈ updIds calls, dp.id ≠ some i) →
    applyUpds calls dp = dp := by
  induction calls with
  | nil => intro dp _; rfl
  | cons c cs ih =>
    intro dp h
    cases c with
    | create v cm ds r =>
      rw [applyUpds_cons_create]
      exact ih dp (fun i hi => h i (by rw [updIds_cons_create]; exact hi))
    | update i v cm ds =>
      have hmem : i ∈ updIds (Call.update i v cm ds :: cs) := by
        rw [updIds_cons_update]
        exact List.mem_cons_self i _
      rw [applyUpds_cons_update, applyUpd_of_ne i v cm ds dp (h i hmem)]
      refine ih dp (fun j hj => h j ?_)
      rw [updIds_cons_update]
      exact List.mem_cons_of_mem i hj
    | delete i =>
      rw [applyUpds_cons_delete]
      refine ih dp (fun j hj => h j ?_)
      rw [updIds_cons_delete]
      exact hj

/-- `survives` of the empty call sequence. -/
theorem survives_nil (dp : DP) : survives [] dp = true := by
  simp [survives, delIds]

/-- `survives` ignores creates. -/
theorem survives_cons_create (v : Int) (c ds r : String) (cs : List Call)
    (dp : DP) :
    survives (Call.create v c ds r :: cs) dp = survives cs dp := by
  simp [survives, delIds_cons_create]

/-- `survives` ignores updates. -/
theorem survives_cons_update (i : String) (v : Int) (c ds : String)
    (cs : List Call) (dp : DP) :
    survives (Call.update i v c ds :: cs) dp = survives cs dp := by
  simp [survives, delIds_cons_update]

/-- `survives` of a delete checks the id and recurses. -/
theorem survives_cons_delete (i : String) (cs : List Call) (dp : DP) :
    survives (Call.delete i :: cs) dp =
      (decide (dp.id ≠ some i) && survives cs dp) := by
  simp [survives, delIds_cons_delete]

/-- `survives` in terms of the delete ids. -/
theorem survives_iff (calls : List Call) (dp : DP) :
    survives calls dp = true ↔ ∀ i ∈ delIds calls, dp.id ≠ some i := by
  simp [survives]

/-- `createdOf` over an append, with the create counter threaded. -/
theorem createdOf_append (freshId : Nat → String) :
    ∀ (a b : List Call) (n : Nat),
    createdOf freshId (a ++ b) n =
      createdOf freshId a n ++ createdOf freshId b (n + numCreates a) := by
  intro a
  induction a with
  | nil => intro b n; simp [createdOf, numCreates]
  | cons c cs ih =>
    intro b n
    cases c with
    | create v cm ds r =>
      rw [show (Call.create v cm ds r :: cs) ++ b =
        Call.create v cm ds r :: (cs ++ b) from rfl]
      rw [show createdOf freshId (Call.create v cm ds r :: (cs ++ b)) n =
        mkCreated (freshId n) v cm ds :: createdOf freshId (cs ++ b) (n + 1)
        from rfl]
      rw [ih b (n + 1)]
      rw [show createdOf freshId (Call.create v cm ds r :: cs) n =
        mkCreated (freshId n) v cm ds :: createdOf freshId cs (n + 1) from rfl]
      rw [show numCreates (Call.create v cm ds r :: cs) = numCreates cs + 1
        from rfl]
      rw [show n + 1 + numCreates cs = n + (numCreates cs + 1) by omega]
      rfl
    | update i v cm ds =>
      rw [show (Call.update i v cm ds :: cs) ++ b =
        Call.update i v cm ds :: (cs ++ b) from rfl]
      rw [show createdOf freshId (Call.update i v cm ds :: (cs ++ b)) n =
        createdOf freshId (cs ++ b) n from rfl]
      rw [ih b n]
      rfl
    | delete i =>
      rw [show (Call.delete i :: cs) ++ b = Call.delete i :: (cs ++ b) from rfl]
      rw [show createdOf freshId (Call.delete i :: (cs ++ b)) n =
        createdOf freshId (cs ++ b) n from rfl]
      rw [ih b n]
      rfl

/-- Membership in `delIds`. -/
theorem mem_delIds (calls : List Call) (i : String) :
    i ∈ delIds calls ↔ Call.delete i ∈ calls := by
  unfold delIds
  rw [List.mem_filterMap]
  constructor
  · rintro ⟨c, hc, hm⟩
    cases c with
    | create _ _ _ _ => cases hm
    | update _ _ _ _ => cases hm
    | delete j =>
      have : j = i := by injection hm
      subst this
      exact hc
  · intro h
    exact ⟨Call.delete i, h, rfl⟩

/-- Membership in `updIds`. -/
theorem mem_updIds (calls : List Call) (i : String) :
    i ∈ updIds calls ↔ ∃ v c ds, Call.update i v c ds ∈ calls := by
  unfold updIds
  rw [List.mem_filterMap]
  constructor
  · rintro ⟨c, hc, hm⟩
    cases c with
    | create _ _ _ _ => cases hm
    | delete _ => cases hm
    | update j v cm ds =>
      have : j = i := by injection hm
      subst this
      exact ⟨v, cm, ds, hc⟩
  · rintro ⟨v, c, ds, h⟩
    exact ⟨Call.update i v c ds, h, rfl⟩

/-- Members of `createdOf` come from create calls of the sequence. -/
theorem mem_createdOf (freshId : Nat → String) :
    ∀ (calls : List Call) (n : Nat) (x : DP), x ∈ createdOf freshId calls n →
    ∃ v c ds r m, Call.create v c ds r ∈ calls ∧
      x = mkCreated (freshId m) v c ds := by
  intro calls
  induction calls with
  | nil => intro n x hx; cases hx
  | cons c cs ih =>
    intro n x hx
    cases c with
    | create v cm ds r =>
      rcases List.mem_cons.mp hx with rfl | hx'
      · exact ⟨v, cm, ds, r, n, List.mem_cons_self _ _, rfl⟩
      · obtain ⟨v', c', ds', r', m, hmem, hxe⟩ := ih (n + 1) x hx'
        exact ⟨v', c', ds', r', m, List.mem_cons_of_mem _ hmem, hxe⟩
    | update i v cm ds =>
      obtain ⟨v', c', ds', r', m, hmem, hxe⟩ := ih n x hx
      exact ⟨v', c', ds', r', m, List.mem_cons_of_mem _ hmem, hxe⟩
    | delete i =>
      obtain ⟨v', c', ds', r', m, hmem, hxe⟩ := ih n x hx
      exact ⟨v', c', ds', r', m, List.mem_cons_of_mem _ hmem, hxe⟩

/-- Replay normal form: when the fresh ids of the creates collide with no
delete or update target of the sequence, the final collection is the
surviving datapoints with all updates applied, followed by the created
datapoints. -/
theorem applyCalls_nf (freshId : Nat → String) :
    ∀ (calls : List Call) (wf : List DP) (n : Nat),
    (∀ m, n ≤ m → freshId m ∉ delIds calls ∧ freshId m ∉ updIds calls) →
    applyCalls freshId calls wf n =
      (wf.map (applyUpds calls)).filter (survives calls) ++
        createdOf freshId calls n := by
  intro calls
  induction calls with
  | nil =>
    intro wf n _
    simp only [applyCalls, createdOf, List.append_nil]
    have h1 : wf.map (applyUpds []) = wf := by
      have h : applyUpds [] = id := by
        funext dp; rfl
      rw [h, List.map_id]
    rw [h1, List.filter_eq_self.mpr (fun a _ => survives_nil a)]
  | cons c cs ih =>
    intro wf n hfr
    cases c with
    | create v cm ds r =>
      rw [show applyCalls freshId (Call.create v cm ds r :: cs) wf n =
        applyCalls freshId cs (wf ++ [mkCreated (freshId n) v cm ds]) (n + 1)
        from rfl]
      rw [ih (wf ++ [mkCreated (freshId n) v cm ds]) (n + 1)
        (fun m hm => ⟨
          fun hd => (hfr m (by omega)).1 (by rw [delIds_cons_create]; exact hd),
          fun hu => (hfr m (by omega)).2 (by rw [updIds_cons_create]; exact hu)⟩)]
      have hnew_upd : applyUpds cs (mkCreated (freshId n) v cm ds) =
          mkCreated (freshId n) v cm ds := by
        apply applyUpds_of_not_mem
        intro i hi hcontra
        have : freshId n = i := by
          have := hcontra
          simp [mkCreated] at this
          exact this
        subst this
        exact (hfr n le_rfl).2 (by rw [updIds_cons_create]; exact hi)
      have hnew_sur : survives cs (mkCreated (freshId n) v cm ds) = true := by
        rw [survives_iff]
        intro i hi hcontra
        have : freshId n = i := by
          simp [mkCreated] at hcontra
          exact hcontra
        subst this
        exact (hfr n le_rfl).1 (by rw [delIds_cons_create]; exact hi)
      rw [List.map_append, List.filter_append]
      simp only [List.map_cons, List.map_nil, hnew_upd, List.filter_cons,
        hnew_sur, if_true, List.filter_nil]
      rw [show createdOf freshId (Call.create v cm ds r :: cs) n =
        mkCreated (freshId n) v cm ds :: createdOf freshId cs (n + 1) from rfl]
      have hfilter_congr : (wf.map (applyUpds cs)).filter (survives cs) =
          (wf.map (applyUpds (Call.create v cm ds r :: cs))).filter
            (survives (Call.create v cm ds r :: cs)) := by
        have hm : wf.map (applyUpds cs) =
            wf.map (applyUpds (Call.create v cm ds r :: cs)) := by
          apply List.map_congr_left
          intro dp _
          rw [applyUpds_cons_create]
        rw [← hm]
        apply List.filter_congr
        intro dp _
        rw [survives_cons_create]
      rw [hfilter_congr]
      simp [List.append_assoc]
    | update i v cm ds =>
      rw [show applyCalls freshId (Call.update i v cm ds :: cs) wf n =
        applyCalls freshId cs (wf.map (applyUpd i v cm ds)) n from rfl]
      rw [ih (wf.map (applyUpd i v cm ds)) n
        (fun m hm => ⟨
          fun hd => (hfr m hm).1 (by rw [delIds_cons_update]; exact hd),
          fun hu => (hfr m hm).2
            (by rw [updIds_cons_update]; exact List.mem_cons_of_mem i hu)⟩)]
      rw [List.map_map]
      have hm : wf.map (applyUpds cs ∘ applyUpd i v cm ds) =
          wf.map (applyUpds (Call.update i v cm ds :: cs)) := by
        apply List.map_congr_left
        intro dp _
        rw [Function.comp_apply, applyUpds_cons_update]
      rw [hm]
      have hfc : (wf.map (applyUpds (Call.update i v cm ds :: cs))).filter
            (survives cs) =
          (wf.map (applyUpds (Call.update i v cm ds :: cs))).filter
            (survives (Call.update i v cm ds :: cs)) := by
        apply List.filter_congr
        intro dp _
        rw [survives_cons_update]
      rw [hfc]
      rfl
    | delete i =>
      rw [show applyCalls freshId (Call.delete i :: cs) wf n =
        applyCalls freshId cs (wf.filter (fun dp => dp.id ≠ some i)) n
        from rfl]
      rw [ih (wf.filter (fun dp => dp.id ≠ some i)) n
        (fun m hm => ⟨
          fun hd => (hfr m hm).1
            (by rw [delIds_cons_delete]; exact List.mem_cons_of_mem i hd),
          fun hu => (hfr m hm).2 (by rw [updIds_cons_delete]; exact hu)⟩)]
      have hstep : ((wf.filter (fun dp => dp.id ≠ some i)).map
            (applyUpds cs)).filter (survives cs) =
          (wf.map (applyUpds (Call.delete i :: cs))).filter
            (survives (Call.delete i :: cs)) := by
        have hm : ∀ l : List DP, l.map (applyUpds cs) =
            l.map (applyUpds (Call.delete i :: cs)) := by
          intro l
          apply List.map_congr_left
          intro dp _
          rw [applyUpds_cons_delete]
        rw [hm]
        rw [List.filter_map, List.filter_map]
        congr 1
        rw [List.filter_filter]
        apply List.filter_congr
        intro dp _
        rw [Function.comp_apply, Function.comp_apply, survives_cons_delete]
        rw [applyUpds_id]
        rcases h : dp.id with _ | j
        · simp [survives_cons_delete, applyUpds_id, h]
        · by_cases hij : j = i
          · subst hij
            simp [h]
          · simp [h, hij]
      rw [hstep]
      rfl

/-! ## Shape of the per-day calls -/

/-- An empty day issues exactly the idempotent create. -/
theorem reconcileDay_nil (env : Env) (ds : String) (v : Int) :
    reconcileDay env ds v [] =
      [Call.create v (comment_ok ds v) ds (requestid_for ds)] := rfl

/-- The sort is empty only on the empty list. -/
theorem sortDesc_eq_nil_iff (key : DP → ℚ) (l : List DP) :
    sortDesc key l = [] ↔ l = [] := by
  constructor
  · intro h
    have hp := sortDesc_perm key l
    rw [h] at hp
    exact (List.Perm.nil_eq hp).symm
  · rintro rfl
    rfl

/-- A non-empty day's calls: the extras' deletes followed by the keeper's
conditional update. -/
theorem reconcileDay_cons (env : Env) (ds : String) (v : Int) (dps : List DP)
    (keeper : DP) (extras : List DP)
    (hsort : sortDesc (dp_updated_key env) dps = keeper :: extras) :
    reconcileDay env ds v dps =
      extras.filterMap (fun dp => dp.id.map Call.delete) ++
        (if pyRound (keeper.value.getD 0) ≠ v ∨
            keeper.comment.getD "" ≠ comment_ok ds v then
          match keeper.id with
          | some kp_id => [Call.update kp_id v (comment_ok ds v) ds]
          | none => []
        else []) := by
  unfold reconcileDay
  rw [hsort]

/-- Delete ids of a day: exactly the ids present among the extras. -/
theorem reconcileDay_delIds (env : Env) (ds : String) (v : Int)
    (dps : List DP) (keeper : DP) (extras : List DP)
    (hsort : sortDesc (dp_updated_key env) dps = keeper :: extras) :
    delIds (reconcileDay env ds v dps) = extras.filterMap DP.id := by
  rw [reconcileDay_cons env ds v dps keeper extras hsort, delIds_append,
    delIds_of_deletes]
  have hupd : delIds
      (if pyRound (keeper.value.getD 0) ≠ v ∨
          keeper.comment.getD "" ≠ comment_ok ds v then
        match keeper.id with
        | some kp_id => [Call.update kp_id v (comment_ok ds v) ds]
        | none => []
      else []) = [] := by
    by_cases hc : pyRound (keeper.value.getD 0) ≠ v ∨
        keeper.comment.getD "" ≠ comment_ok ds v
    · rw [if_pos hc]
      rcases keeper.id with _ | kid <;> rfl
    · rw [if_neg hc]; rfl
  rw [hupd, List.append_nil]

/-- A delete issued by a day names the id of one of the day's records. -/
theorem mem_reconcileDay_delete (env : Env) (ds : String) (v : Int)
    (dps : List DP) (i : String)
    (h : Call.delete i ∈ reconcileDay env ds v dps) :
    ∃ dp ∈ dps, dp.id = some i := by
  rcases hs : sortDesc (dp_updated_key env) dps with _ | ⟨keeper, extras⟩
  · rw [(sortDesc_eq_nil_iff _ dps).mp hs] at h
    rw [reconcileDay_nil] at h
    rcases List.mem_cons.mp h with hc | hc
    · cases hc
    · cases hc
  · rw [reconcileDay_cons env ds v dps keeper extras hs] at h
    have hperm : (keeper :: extras).Perm dps := by
      rw [← hs]; exact sortDesc_perm _ dps
    rcases List.mem_append.mp h with hdel | hupd
    · obtain ⟨dp, hdp, hmap⟩ := List.mem_filterMap.mp hdel
      obtain ⟨j, hj, hinj⟩ := Option.map_eq_some'.mp hmap
      have : j = i := by injection hinj
      subst this
      exact ⟨dp, hperm.mem_iff.mp (List.mem_cons_of_mem keeper hdp), hj⟩
    · by_cases hc : pyRound (keeper.value.getD 0) ≠ v ∨
          keeper.comment.getD "" ≠ comment_ok ds v
      · rw [if_pos hc] at hupd
        rcases hk : keeper.id with _ | kid
        · rw [hk] at hupd; cases hupd
        · rw [hk] at hupd
          rcases List.mem_cons.mp hupd with he | he
          · cases he
          · cases he
      · rw [if_neg hc] at hupd; cases hupd

/-- An update issued by a day targets the keeper's id and carries the SoT
value, the canonical comment, and the daystamp. -/
theorem mem_reconcileDay_update (env : Env) (ds : String) (v : Int)
    (dps : List DP) (i : String) (v' : Int) (c' d' : String)
    (h : Call.update i v' c' d' ∈ reconcileDay env ds v dps) :
    (∃ dp ∈ dps, dp.id = some i) ∧ v' = v ∧ c' = comment_ok ds v ∧ d' = ds := by
  rcases hs : sortDesc (dp_updated_key env) dps with _ | ⟨keeper, extras⟩
  · rw [(sortDesc_eq_nil_iff _ dps).mp hs] at h
    rw [reconcileDay_nil] at h
    rcases List.mem_cons.mp h with hc | hc
    · cases hc
    · cases hc
  · rw [reconcileDay_cons env ds v dps keeper extras hs] at h
    have hperm : (keeper :: extras).Perm dps := by
      rw [← hs]; exact sortDesc_perm _ dps
    rcases List.mem_append.mp h with hdel | hupd
    · obtain ⟨dp, _, hmap⟩ := List.mem_filterMap.mp hdel
      obtain ⟨j, _, hinj⟩ := Option.map_eq_some'.mp hmap
      cases hinj
    · by_cases hc : pyRound (keeper.value.getD 0) ≠ v ∨
          keeper.comment.getD "" ≠ comment_ok ds v
      · rw [if_pos hc] at hupd
        rcases hk : keeper.id with _ | kid
        · rw [hk] at hupd; cases hupd
        · rw [hk] at hupd
          rcases List.mem_cons.mp hupd with he | he
          · obtain ⟨h1, h2, h3, h4⟩ :
                i = kid ∧ v' = v ∧ c' = comment_ok ds v ∧ d' = ds := by
              injection he with e1 e2 e3 e4
              exact ⟨e1, e2, e3, e4⟩
            subst h1
            refine ⟨⟨keeper, hperm.mem_iff.mp (List.mem_cons_self _ _), hk⟩,
              h2, h3, h4⟩
          · cases he
      · rw [if_neg hc] at hupd; cases hupd

/-- A create is issued only for an empty day, with the canonical fields. -/
theorem mem_reconcileDay_create (env : Env) (ds : String) (v : Int)
    (dps : List DP) (v' : Int) (c' d' r' : String)
    (h : Call.create v' c' d' r' ∈ reconcileDay env ds v dps) :
    dps = [] ∧ v' = v ∧ c' = comment_ok ds v ∧ d' = ds ∧
      r' = requestid_for ds := by
  rcases hs : sortDesc (dp_updated_key env) dps with _ | ⟨keeper, extras⟩
  · have hnil := (sortDesc_eq_nil_iff _ dps).mp hs
    rw [hnil, reconcileDay_nil] at h
    rcases List.mem_cons.mp h with hc | hc
    · obtain ⟨h1, h2, h3, h4⟩ :
          v' = v ∧ c' = comment_ok ds v ∧ d' = ds ∧ r' = requestid_for ds := by
        injection hc with e1 e2 e3 e4
        exact ⟨e1, e2, e3, e4⟩
      exact ⟨hnil, h1, h2, h3, h4⟩
    · cases hc
  · rw [reconcileDay_cons env ds v dps keeper extras hs] at h
    exfalso
    rcases List.mem_append.mp h with hdel | hupd
    · obtain ⟨dp, _, hmap⟩ := List.mem_filterMap.mp hdel
      obtain ⟨j, _, hinj⟩ := Option.map_eq_some'.mp hmap
      cases hinj
    · by_cases hc : pyRound (keeper.value.getD 0) ≠ v ∨
          keeper.comment.getD "" ≠ comment_ok ds v
      · rw [if_pos hc] at hupd
        rcases hk : keeper.id with _ | kid
        · rw [hk] at hupd; cases hupd
        · rw [hk] at hupd
          rcases List.mem_cons.mp hupd with he | he
          · cases he
          · cases he
      · rw [if_neg hc] at hupd; cases hupd

/-- A fold of plain appends is a flat map. -/
theorem foldl_append_eq_flatMap {α β : Type} (f : α → List β) :
    ∀ (l : List α) (acc : List β),
    l.foldl (fun acc x => acc ++ f x) acc = acc ++ l.flatMap f := by
  intro l
  induction l with
  | nil => intro acc; simp
  | cons x l ih =>
    intro acc
    rw [List.foldl_cons, ih, List.flatMap_cons, List.append_assoc]

/-- `main_calls` as a flat map over the sorted SoT items. -/
theorem main_calls_eq_flatMap (env : Env) (sot_map : List (String × Int))
    (by_day : List (String × List DP)) :
    main_calls env sot_map by_day =
      (sortPairs sot_map).flatMap
        (fun p => reconcileDay env p.1 p.2 (lookupGroups by_day p.1)) := by
  unfold main_calls
  rw [foldl_append_eq_flatMap]
  rfl

/-- Inserting a pair permutes with consing. -/
theorem insertAsc_perm (x : String × Int) (l : List (String × Int)) :
    (insertAsc x l).Perm (x :: l) := by
  induction l with
  | nil => exact List.Perm.refl _
  | cons y ys ih =>
    unfold insertAsc
    by_cases h : pairLt x y
    · rw [if_pos h]
    · rw [if_neg h]
      exact (ih.cons y).trans (List.Perm.swap x y ys)

/-- `sortPairs` is a permutation of its input. -/
theorem sortPairs_perm (l : List (String × Int)) : (sortPairs l).Perm l := by
  suffices h : ∀ (l acc : List (String × Int)),
      (l.foldl (fun acc x => insertAsc x acc) acc).Perm (acc ++ l) by
    simpa using h l []
  intro l
  induction l with
  | nil => intro acc; simp
  | cons x l ih =>
    intro acc
    rw [List.foldl_cons]
    refine (ih (insertAsc x acc)).trans ?_
    have h1 : (insertAsc x acc ++ l).Perm ((x :: acc) ++ l) :=
      (insertAsc_perm x acc).append_right l
    refine h1.trans ?_
    simp only [List.cons_append]
    exact List.perm_middle.symm

/-- Every delete issued by `reconcile_history` targets an id of the
fetched collection. -/
theorem reconcile_delIds_sub (env : Env) (sp : Bool)
    (sot_map : List (String × Int)) (wf : List DP) :
    ∀ i ∈ delIds (reconcile_history env sp sot_map wf),
      i ∈ wf.filterMap DP.id := by
  intro i hi
  rw [mem_delIds] at hi
  unfold reconcile_history at hi
  rcases List.mem_append.mp hi with hmain | hpurge
  · rw [main_calls_eq_flatMap, List.mem_flatMap] at hmain
    obtain ⟨p, _, hin⟩ := hmain
    obtain ⟨dp, hdp, hid⟩ := mem_reconcileDay_delete env p.1 p.2 _ i hin
    rw [lookupGroups_groupByDay] at hdp
    exact List.mem_filterMap.mpr ⟨dp, (List.mem_filter.mp hdp).1, hid⟩
  · rcases hsp : sp with _ | _
    · rw [hsp] at hpurge; simp at hpurge
    · rw [hsp] at hpurge
      simp only [if_true] at hpurge
      obtain ⟨dp, hdp, hid, _, _, _⟩ :=
        (purge_mem_iff env sot_map wf i).mp hpurge
      exact List.mem_filterMap.mpr ⟨dp, hdp, hid⟩

/-- Every update issued by `reconcile_history` targets an id of the
fetched collection. -/
theorem reconcile_updIds_sub (env : Env) (sp : Bool)
    (sot_map : List (String × Int)) (wf : List DP) :
    ∀ i ∈ updIds (reconcile_history env sp sot_map wf),
      i ∈ wf.filterMap DP.id := by
  intro i hi
  rw [mem_updIds] at hi
  obtain ⟨v, c, ds, hin⟩ := hi
  unfold reconcile_history at hin
  rcases List.mem_append.mp hin with hmain | hpurge
  · rw [main_calls_eq_flatMap, List.mem_flatMap] at hmain
    obtain ⟨p, _, hday⟩ := hmain
    obtain ⟨⟨dp, hdp, hid⟩, _, _, _⟩ :=
      mem_reconcileDay_update env p.1 p.2 _ i v c ds hday
    rw [lookupGroups_groupByDay] at hdp
    exact List.mem_filterMap.mpr ⟨dp, (List.mem_filter.mp hdp).1, hid⟩
  · exfalso
    rcases hsp : sp with _ | _
    · rw [hsp] at hpurge; simp at hpurge
    · rw [hsp] at hpurge
      simp only [if_true] at hpurge
      rw [purge_calls_eq_bind, List.mem_flatMap] at hpurge
      obtain ⟨p, _, hin2⟩ := hpurge
      by_cases hk : p.1 ∈ sot_map.map Prod.fst
      · rw [if_pos hk] at hin2; cases hin2
      · rw [if_neg hk] at hin2
        obtain ⟨dp, _, hmap⟩ := List.mem_filterMap.mp hin2
        obtain ⟨j, _, hinj⟩ := Option.map_eq_some'.mp hmap
        cases hinj

/-! ## Pointwise facts about the replayed state -/

/-- A created datapoint lives on its posted (non-empty) daystamp. -/
theorem effDay_mkCreated (env : Env) (fid : String) (v : Int) (c ds : String)
    (hds : ds ≠ "") : effDay env (mkCreated fid v c ds) = some ds := by
  simp [effDay, mkCreated, hds]

/-- Sorting a singleton. -/
theorem sortDesc_singleton (key : DP → ℚ) (x : DP) : sortDesc key [x] = [x] :=
  rfl

/-- Survival only looks at the id, which updates preserve. -/
theorem survives_applyUpds (calls calls' : List Call) (dp : DP) :
    survives calls (applyUpds calls' dp) = survives calls dp := by
  simp [survives, applyUpds_id]

/-- An id-less datapoint survives everything. -/
theorem survives_of_id_none (calls : List Call) (dp : DP)
    (h : dp.id = none) : survives calls dp = true := by
  rw [survives_iff]
  intro i _ hcontra
  rw [h] at hcontra
  cases hcontra

/-- An id-less datapoint is never updated. -/
theorem applyUpds_of_id_none (calls : List Call) (dp : DP)
    (h : dp.id = none) : applyUpds calls dp = dp := by
  apply applyUpds_of_not_mem
  intro i _ hcontra
  rw [h] at hcontra
  cases hcontra

/-- A datapoint that already carries the uniform update payload is fixed
by the cumulative updates. -/
theorem applyUpds_fixed (v : Int) (c d : String) (hd : d ≠ "") :
    ∀ (calls : List Call) (dp : DP),
    dp.value = some ((v : ℚ)) → dp.comment = some c → dp.daystamp = some d →
    (∀ i v' c' d', Call.update i v' c' d' ∈ calls → dp.id = some i →
      v' = v ∧ c' = c ∧ d' = d) →
    applyUpds calls dp = dp := by
  intro calls
  induction calls with
  | nil => intro dp _ _ _ _; rfl
  | cons cl cs ih =>
    intro dp hv hc hdst huni
    cases cl with
    | create v0 c0 d0 r0 =>
      rw [applyUpds_cons_create]
      refine ih dp hv hc hdst (fun i v' c' d' hm hi => huni i v' c' d' ?_ hi)
      exact List.mem_cons_of_mem _ hm
    | delete i0 =>
      rw [applyUpds_cons_delete]
      refine ih dp hv hc hdst (fun i v' c' d' hm hi => huni i v' c' d' ?_ hi)
      exact List.mem_cons_of_mem _ hm
    | update i0 v0 c0 d0 =>
      rw [applyUpds_cons_update]
      by_cases hmatch : dp.id = some i0
      · obtain ⟨hv0, hc0, hd0⟩ :=
          huni i0 v0 c0 d0 (List.mem_cons_self _ _) hmatch
        have hfix : applyUpd i0 v0 c0 d0 dp = dp := by
          have h1 : applyUpd i0 v0 c0 d0 dp =
              { dp with
                value := some ((v0 : ℚ))
                comment := some c0
                daystamp := some d0 } := by
            unfold applyUpd
            rw [if_pos hmatch, if_neg (hd0 ▸ hd)]
          rw [h1, hv0, hc0, hd0, ← hv, ← hc, ← hdst]
        rw [hfix]
        refine ih dp hv hc hdst (fun i v' c' d' hm hi => huni i v' c' d' ?_ hi)
        exact List.mem_cons_of_mem _ hm
      · rw [applyUpd_of_ne _ _ _ _ _ hmatch]
        refine ih dp hv hc hdst (fun i v' c' d' hm hi => huni i v' c' d' ?_ hi)
        exact List.mem_cons_of_mem _ hm

/-- When every matching update carries the same payload and at least one
matches, the cumulative updates set exactly that payload. -/
theorem applyUpds_sets (v : Int) (c d : String) (hd : d ≠ "") :
    ∀ (calls : List Call) (dp : DP),
    (∀ i v' c' d', Call.update i v' c' d' ∈ calls → dp.id = some i →
      v' = v ∧ c' = c ∧ d' = d) →
    (∃ i v' c' d', Call.update i v' c' d' ∈ calls ∧ dp.id = some i) →
    applyUpds calls dp =
      { dp with
        value := some ((v : ℚ))
        comment := some c
        daystamp := some d } := by
  intro calls
  induction calls with
  | nil =>
    rintro dp _ ⟨i, v', c', d', hmem, _⟩
    cases hmem
  | cons cl cs ih =>
    rintro dp huni ⟨i, v', c', d', hmem, hid⟩
    cases cl with
    | create v0 c0 d0 r0 =>
      rw [applyUpds_cons_create]
      refine ih dp (fun j vj cj dj hm hj => huni j vj cj dj
        (List.mem_cons_of_mem _ hm) hj) ⟨i, v', c', d', ?_, hid⟩
      rcases List.mem_cons.mp hmem with he | hm
      · cases he
      · exact hm
    | delete i0 =>
      rw [applyUpds_cons_delete]
      refine ih dp (fun j vj cj dj hm hj => huni j vj cj dj
        (List.mem_cons_of_mem _ hm) hj) ⟨i, v', c', d', ?_, hid⟩
      rcases List.mem_cons.mp hmem with he | hm
      · cases he
      · exact hm
    | update i0 v0 c0 d0 =>
      rw [applyUpds_cons_update]
      by_cases hmatch : dp.id = some i0
      · obtain ⟨hv0, hc0, hd0⟩ :=
          huni i0 v0 c0 d0 (List.mem_cons_self _ _) hmatch
        have happ : applyUpd i0 v0 c0 d0 dp =
            { dp with
              value := some ((v : ℚ))
              comment := some c
              daystamp := some d } := by
          unfold applyUpd
          rw [if_pos hmatch, if_neg (hd0 ▸ hd), hv0, hc0, hd0]
        rw [happ]
        apply applyUpds_fixed v c d hd
        · rfl
        · rfl
        · rfl
        · intro j vj cj dj hm hj
          refine huni j vj cj dj (List.mem_cons_of_mem _ hm) ?_
          simpa using hj
      · rw [applyUpd_of_ne _ _ _ _ _ hmatch]
        refine ih dp (fun j vj cj dj hm hj => huni j vj cj dj
          (List.mem_cons_of_mem _ hm) hj) ⟨i, v', c', d', ?_, hid⟩
        rcases List.mem_cons.mp hmem with he | hm
        · exfalso
          have hii : i = i0 := by injection he
          subst hii
          exact hmatch hid
        · exact hm

/-- The cumulative updates keep the effective daystamp of a datapoint all
of whose matching updates post its own (non-empty) day. -/
theorem effDay_applyUpds (env : Env) :
    ∀ (calls : List Call) (dp : DP),
    (∀ i v' c' d', Call.update i v' c' d' ∈ calls → dp.id = some i →
      d' ≠ "" ∧ effDay env dp = some d') →
    effDay env (applyUpds calls dp) = effDay env dp := by
  intro calls
  induction calls with
  | nil => intro dp _; rfl
  | cons cl cs ih =>
    intro dp h
    cases cl with
    | create v0 c0 d0 r0 =>
      rw [applyUpds_cons_create]
      exact ih dp (fun i v' c' d' hm hi =>
        h i v' c' d' (List.mem_cons_of_mem _ hm) hi)
    | delete i0 =>
      rw [applyUpds_cons_delete]
      exact ih dp (fun i v' c' d' hm hi =>
        h i v' c' d' (List.mem_cons_of_mem _ hm) hi)
    | update i0 v0 c0 d0 =>
      rw [applyUpds_cons_update]
      by_cases hmatch : dp.id = some i0
      · obtain ⟨hd0, heff⟩ := h i0 v0 c0 d0 (List.mem_cons_self _ _) hmatch
        have key : ∀ dpN : DP, dpN.id = dp.id → effDay env dpN = some d0 →
            effDay env (applyUpds cs dpN) = effDay env dp := by
          intro dpN hidN heffN
          have htail : ∀ i v' c' d', Call.update i v' c' d' ∈ cs →
              dpN.id = some i → d' ≠ "" ∧ effDay env dpN = some d' := by
            intro i v' c' d' hm hi
            have hdp : dp.id = some i := by rw [← hidN]; exact hi
            obtain ⟨hne, he⟩ := h i v' c' d' (List.mem_cons_of_mem _ hm) hdp
            have hdd : d' = d0 := by
              rw [he] at heff
              injection heff
            refine ⟨hne, ?_⟩
            rw [heffN, hdd]
          rw [ih dpN htail, heffN, heff]
        have happ : applyUpd i0 v0 c0 d0 dp =
            { dp with
              value := some ((v0 : ℚ))
              comment := some c0
              daystamp := some d0 } := by
          unfold applyUpd
          rw [if_pos hmatch, if_neg hd0]
        rw [happ]
        refine key _ rfl ?_
        simp [effDay, hd0]
      · rw [applyUpd_of_ne _ _ _ _ _ hmatch]
        exact ih dp (fun i v' c' d' hm hi =>
          h i v' c' d' (List.mem_cons_of_mem _ hm) hi)

/-! ## Call-level characterisation of a reconciliation run -/

/-- With keys without duplicates, a key determines its value. -/
theorem pair_nodup_val (l : List (String × Int))
    (hnd : (l.map Prod.fst).Nodup) (k : String) (a b : Int)
    (ha : (k, a) ∈ l) (hb : (k, b) ∈ l) : a = b := by
  induction l with
  | nil => cases ha
  | cons p rest ih =>
    obtain ⟨k0, v0⟩ := p
    have hnd' : (rest.map Prod.fst).Nodup :=
      (List.nodup_cons.mp (by simpa using hnd)).2
    have hk0 : k0 ∉ rest.map Prod.fst :=
      (List.nodup_cons.mp (by simpa using hnd)).1
    rcases List.mem_cons.mp ha with he | ha'
    · obtain ⟨rfl, rfl⟩ : k0 = k ∧ v0 = a := by
        have h2 := he
        simp only [Prod.mk.injEq] at h2
        exact ⟨h2.1.symm, h2.2.symm⟩
      rcases List.mem_cons.mp hb with he' | hb'
      · have h2 := he'
        simp only [Prod.mk.injEq] at h2
        exact h2.2.symm
      · exact absurd (List.mem_map.mpr ⟨(k0, b), hb', rfl⟩) hk0
    · rcases List.mem_cons.mp hb with he' | hb'
      · obtain ⟨rfl, rfl⟩ : k0 = k ∧ v0 = b := by
          have h2 := he'
          simp only [Prod.mk.injEq] at h2
          exact ⟨h2.1.symm, h2.2.symm⟩
        exact absurd (List.mem_map.mpr ⟨(k0, a), ha', rfl⟩) hk0
      · exact ih hnd' ha' hb'

/-- Every purge call is a delete. -/
theorem purge_all_deletes (sot_map : List (String × Int))
    (by_day : List (String × List DP)) :
    ∀ c ∈ purge_calls sot_map by_day, ∃ i, c = Call.delete i := by
  intro c hc
  rw [purge_calls_eq_bind, List.mem_flatMap] at hc
  obtain ⟨p, _, hin⟩ := hc
  by_cases hk : p.1 ∈ sot_map.map Prod.fst
  · rw [if_pos hk] at hin; cases hin
  · rw [if_neg hk] at hin
    obtain ⟨dp, _, hmap⟩ := List.mem_filterMap.mp hin
    obtain ⟨j, _, hinj⟩ := Option.map_eq_some'.mp hmap
    exact ⟨j, hinj.symm⟩

/-- A sequence of deletes creates nothing. -/
theorem createdOf_of_all_deletes (freshId : Nat → String) :
    ∀ (calls : List Call) (n : Nat),
    (∀ c ∈ calls, ∃ i, c = Call.delete i) →
    createdOf freshId calls n = [] := by
  intro calls
  induction calls with
  | nil => intro n _; rfl
  | cons c cs ih =>
    intro n h
    obtain ⟨i, rfl⟩ := h c (List.mem_cons_self c cs)
    exact ih n (fun c' hc' => h c' (List.mem_cons_of_mem _ hc'))

/-- Calls of a SoT day's reconciliation belong to the whole run. -/
theorem mem_calls_of_mem_day (env : Env) (sp : Bool)
    (sot_map : List (String × Int)) (wf : List DP) (ds : String) (v : Int)
    (hday : (ds, v) ∈ sot_map) (c : Call)
    (hc : c ∈ reconcileDay env ds v (lookupGroups (groupByDay env wf) ds)) :
    c ∈ reconcile_history env sp sot_map wf := by
  unfold reconcile_history
  refine List.mem_append.mpr (Or.inl ?_)
  rw [main_calls_eq_flatMap, List.mem_flatMap]
  exact ⟨(ds, v), (sortPairs_perm sot_map).mem_iff.mpr hday, hc⟩

/-- Every update issued by a run comes from the day of its target's
keeper: the update's daystamp is a SoT day, the keeper carries the
target id and lives on exactly that day, and the payload is the day's
SoT value and canonical comment; moreover the update is a member of that
day's own call list. -/
theorem mem_update_char (env : Env) (sp : Bool)
    (sot_map : List (String × Int)) (wf : List DP)
    (i : String) (v' : Int) (c' d' : String)
    (h : Call.update i v' c' d' ∈ reconcile_history env sp sot_map wf) :
    ∃ keeper ∈ wf, keeper.id = some i ∧ effDay env keeper = some d' ∧
      (d', v') ∈ sot_map ∧ c' = comment_ok d' v' ∧
      Call.update i v' c' d' ∈
        reconcileDay env d' v' (lookupGroups (groupByDay env wf) d') := by
  unfold reconcile_history at h
  rcases List.mem_append.mp h with hmain | hpurge
  · rw [main_calls_eq_flatMap, List.mem_flatMap] at hmain
    obtain ⟨p, hp, hday⟩ := hmain
    obtain ⟨⟨dp, hdp, hid⟩, hv, hcm, hds⟩ :=
      mem_reconcileDay_update env p.1 p.2 _ i v' c' d' hday
    rw [lookupGroups_groupByDay] at hdp
    have hsplit := List.mem_filter.mp hdp
    have heff : effDay env dp = some p.1 := by simpa using hsplit.2
    subst hv hcm hds
    refine ⟨dp, hsplit.1, hid, heff, (sortPairs_perm sot_map).mem_iff.mp hp,
      rfl, ?_⟩
    rw [← lookupGroups_groupByDay] at hdp
    exact hday
  · exfalso
    rcases hsp : sp with _ | _
    · rw [hsp] at hpurge; simp at hpurge
    · rw [hsp] at hpurge
      simp only [if_true] at hpurge
      obtain ⟨j, hj⟩ := purge_all_deletes sot_map _ _ hpurge
      cases hj

/-- Every create issued by a run belongs to an empty SoT day and carries
its canonical payload. -/
theorem mem_create_char (env : Env) (sp : Bool)
    (sot_map : List (String × Int)) (wf : List DP)
    (v' : Int) (c' d' r' : String)
    (h : Call.create v' c' d' r' ∈ reconcile_history env sp sot_map wf) :
    (d', v') ∈ sot_map ∧ lookupGroups (groupByDay env wf) d' = [] ∧
      c' = comment_ok d' v' := by
  unfold reconcile_history at h
  rcases List.mem_append.mp h with hmain | hpurge
  · rw [main_calls_eq_flatMap, List.mem_flatMap] at hmain
    obtain ⟨p, hp, hday⟩ := hmain
    obtain ⟨hnil, hv, hcm, hds, _⟩ :=
      mem_reconcileDay_create env p.1 p.2 _ v' c' d' r' hday
    subst hv hds
    exact ⟨(sortPairs_perm sot_map).mem_iff.mp hp, hnil, hcm⟩
  · exfalso
    rcases hsp : sp with _ | _
    · rw [hsp] at hpurge; simp at hpurge
    · rw [hsp] at hpurge
      simp only [if_true] at hpurge
      obtain ⟨j, hj⟩ := purge_all_deletes sot_map _ _ hpurge
      cases hj

/-- A datapoint whose id is deleted by the run does not survive. -/
theorem survives_eq_false_of (calls : List Call) (dp : DP) (i : String)
    (hi : i ∈ delIds calls) (hid : dp.id = some i) :
    survives calls dp = false := by
  rw [show survives calls dp = decide (∀ j ∈ delIds calls, dp.id ≠ some j)
    from rfl]
  rw [decide_eq_false_iff_not]
  intro hall
  exact hall i hi hid

/-- The run's updates never change a fetched datapoint's effective
daystamp. -/
theorem effDay_U (env : Env) (sp : Bool) (sot_map : List (String × Int))
    (wf : List DP)
    (hk : ∀ p ∈ sot_map, p.1 ≠ "")
    (hids : (wf.filterMap DP.id).Nodup) :
    ∀ dp ∈ wf,
    effDay env (applyUpds (reconcile_history env sp sot_map wf) dp) =
      effDay env dp := by
  intro dp hdp
  apply effDay_applyUpds
  intro i v' c' d' hm hi
  obtain ⟨keeper, hkw, hkid, hkeff, hdv, _, _⟩ :=
    mem_update_char env sp sot_map wf i v' c' d' hm
  have heq : dp = keeper := eq_of_same_id wf hids dp hdp keeper hkw i hi hkid
  subst heq
  exact ⟨hk (d', v') hdv, hkeff⟩

/-! ## The created datapoints of a run -/

/-- Created datapoints of a day list: each comes from some listed day,
with that day's canonical payload, and only days with an empty bucket
create. -/
theorem created_flatMap_mem (env : Env) (freshId : Nat → String)
    (by_day : List (String × List DP)) :
    ∀ (L : List (String × Int)) (n : Nat) (x : DP),
    x ∈ createdOf freshId
      (L.flatMap (fun p => reconcileDay env p.1 p.2 (lookupGroups by_day p.1)))
      n →
    ∃ p ∈ L, ∃ m, x = mkCreated (freshId m) p.2 (comment_ok p.1 p.2) p.1 ∧
      lookupGroups by_day p.1 = [] := by
  intro L n x hx
  obtain ⟨v, c, d, r, m, hmem, hxe⟩ := mem_createdOf freshId _ n x hx
  rw [List.mem_flatMap] at hmem
  obtain ⟨p, hp, hday⟩ := hmem
  obtain ⟨hnil, hv, hcm, hds, _⟩ :=
    mem_reconcileDay_create env p.1 p.2 _ v c d r hday
  subst hv hcm hds
  exact ⟨p, hp, m, hxe, hnil⟩

/-- The purge contributes no created datapoint. -/
theorem created_calls_eq_main (env : Env) (freshId : Nat → String)
    (sp : Bool) (sot_map : List (String × Int)) (wf : List DP) :
    createdOf freshId (reconcile_history env sp sot_map wf) 0 =
      createdOf freshId
        (main_calls env sot_map (groupByDay env wf)) 0 := by
  unfold reconcile_history
  rw [createdOf_append]
  have hpurge : createdOf freshId
      (if sp then purge_calls sot_map (groupByDay env wf) else [])
      (0 + numCreates (main_calls env sot_map (groupByDay env wf))) = [] := by
    rcases sp with _ | _
    · rfl
    · simp only [if_true]
      exact createdOf_of_all_deletes freshId _ _
        (purge_all_deletes sot_map (groupByDay env wf))
  rw [hpurge, List.append_nil]

/-- Every created datapoint of a run belongs to an empty SoT day. -/
theorem created_calls_mem (env : Env) (freshId : Nat → String) (sp : Bool)
    (sot_map : List (String × Int)) (wf : List DP) (x : DP)
    (hx : x ∈ createdOf freshId (reconcile_history env sp sot_map wf) 0) :
    ∃ p ∈ sot_map, ∃ m,
      x = mkCreated (freshId m) p.2 (comment_ok p.1 p.2) p.1 ∧
      lookupGroups (groupByDay env wf) p.1 = [] := by
  rw [created_calls_eq_main, main_calls_eq_flatMap] at hx
  obtain ⟨p, hp, m, hxe, hnil⟩ :=
    created_flatMap_mem env freshId (groupByDay env wf) (sortPairs sot_map)
      0 x hx
  exact ⟨p, (sortPairs_perm sot_map).mem_iff.mp hp, m, hxe, hnil⟩

/-- For an empty SoT day, the created datapoints of the day list filter
to exactly the one canonical creation. -/
theorem created_flatMap_singleton (env : Env) (freshId : Nat → String)
    (by_day : List (String × List DP)) :
    ∀ (L : List (String × Int)) (n : Nat),
    ((L.map Prod.fst).Nodup) → (∀ p ∈ L, p.1 ≠ "") →
    ∀ ds v, (ds, v) ∈ L → lookupGroups by_day ds = [] →
    ∃ m, (createdOf freshId
        (L.flatMap
          (fun p => reconcileDay env p.1 p.2 (lookupGroups by_day p.1)))
        n).filter (fun dp => decide (effDay env dp = some ds)) =
      [mkCreated (freshId m) v (comment_ok ds v) ds] := by
  intro L
  induction L with
  | nil => intro n _ _ ds v hmem; cases hmem
  | cons p L ih =>
    intro n hnd hne ds v hmem hnil
    rw [List.flatMap_cons, createdOf_append, List.filter_append]
    rcases List.mem_cons.mp hmem with he | hmem'
    · obtain ⟨rfl, rfl⟩ : p.1 = ds ∧ p.2 = v := by
        rw [← he]
        exact ⟨rfl, rfl⟩
      rw [hnil, reconcileDay_nil]
      have hhead : (createdOf freshId
          [Call.create p.2 (comment_ok p.1 p.2) p.1 (requestid_for p.1)]
          n).filter (fun dp => decide (effDay env dp = some p.1)) =
          [mkCreated (freshId n) p.2 (comment_ok p.1 p.2) p.1] := by
        rw [show createdOf freshId
            [Call.create p.2 (comment_ok p.1 p.2) p.1 (requestid_for p.1)] n =
          [mkCreated (freshId n) p.2 (comment_ok p.1 p.2) p.1] from rfl]
        rw [List.filter_cons,
          effDay_mkCreated env _ _ _ _ (hne p (List.mem_cons_self p L))]
        simp
      rw [hhead]
      have htail : (createdOf freshId
          (L.flatMap
            (fun q => reconcileDay env q.1 q.2 (lookupGroups by_day q.1)))
          (n + numCreates [Call.create p.2 (comment_ok p.1 p.2) p.1
            (requestid_for p.1)])).filter
          (fun dp => decide (effDay env dp = some p.1)) = [] := by
        rw [List.filter_eq_nil_iff]
        intro x hx
        obtain ⟨q, hq, m, hxe, _⟩ :=
          created_flatMap_mem env freshId by_day L _ x hx
        have hq1 : q.1 ≠ p.1 := by
          intro hqe
          have : p.1 ∈ L.map Prod.fst := by
            rw [← hqe]
            exact List.mem_map.mpr ⟨q, hq, rfl⟩
          exact (List.nodup_cons.mp (by simpa using hnd)).1 this
        rw [hxe, effDay_mkCreated env _ _ _ _
          (hne q (List.mem_cons_of_mem p hq))]
        simp [hq1]
      rw [htail]
      exact ⟨n, by simp⟩
    · have hp1 : p.1 ≠ ds := by
        intro hpe
        have : p.1 ∈ L.map Prod.fst := by
          rw [hpe]
          exact List.mem_map.mpr ⟨(ds, v), hmem', rfl⟩
        exact (List.nodup_cons.mp (by simpa using hnd)).1 this
      have hhead : (createdOf freshId
          (reconcileDay env p.1 p.2 (lookupGroups by_day p.1)) n).filter
          (fun dp => decide (effDay env dp = some ds)) = [] := by
        rw [List.filter_eq_nil_iff]
        intro x hx
        obtain ⟨v', c', d', r', m, hmemc, hxe⟩ :=
          mem_createdOf freshId _ n x hx
        obtain ⟨_, hv, hcm, hds, _⟩ :=
          mem_reconcileDay_create env p.1 p.2 _ v' c' d' r' hmemc
        subst hds
        rw [hxe, effDay_mkCreated env _ _ _ _ (hne p (List.mem_cons_self p L))]
        simp [hp1]
      rw [hhead, List.nil_append]
      exact ih _ (List.nodup_cons.mp (by simpa using hnd)).2
        (fun q hq => hne q (List.mem_cons_of_mem p hq)) ds v hmem' hnil

/-! ## Per-day keeper facts for a run -/

/-- The head of a day's sort is a fetched datapoint of that day. -/
theorem head_mem_bucket (env : Env) (wf : List DP) (ds : String) (k : DP)
    (t : List DP)
    (hsort : sortDesc (dp_updated_key env)
      (wf.filter (fun dp => decide (effDay env dp = some ds))) = k :: t) :
    k ∈ wf ∧ effDay env k = some ds := by
  have hp := sortDesc_perm (dp_updated_key env)
    (wf.filter (fun dp => decide (effDay env dp = some ds)))
  rw [hsort] at hp
  have hk : k ∈ wf.filter (fun dp => decide (effDay env dp = some ds)) :=
    hp.mem_iff.mp (List.mem_cons_self k t)
  have hsplit := List.mem_filter.mp hk
  exact ⟨hsplit.1, by simpa using hsplit.2⟩

/-- Every member of a day's sort tail is a fetched datapoint of that
day. -/
theorem tail_mem_bucket (env : Env) (wf : List DP) (ds : String) (k : DP)
    (t : List DP)
    (hsort : sortDesc (dp_updated_key env)
      (wf.filter (fun dp => decide (effDay env dp = some ds))) = k :: t) :
    ∀ dp ∈ t, dp ∈ wf ∧ effDay env dp = some ds := by
  intro dp hdp
  have hp := sortDesc_perm (dp_updated_key env)
    (wf.filter (fun dp => decide (effDay env dp = some ds)))
  rw [hsort] at hp
  have hk : dp ∈ wf.filter (fun dp => decide (effDay env dp = some ds)) :=
    hp.mem_iff.mp (List.mem_cons_of_mem k hdp)
  have hsplit := List.mem_filter.mp hk
  exact ⟨hsplit.1, by simpa using hsplit.2⟩

/-- A tail record with an id gets a delete call from its day. -/
theorem extra_deleted (env : Env) (sp : Bool) (sot_map : List (String × Int))
    (wf : List DP) (ds : String) (v : Int) (hday : (ds, v) ∈ sot_map)
    (k : DP) (t : List DP)
    (hsort : sortDesc (dp_updated_key env)
      (wf.filter (fun dp => decide (effDay env dp = some ds))) = k :: t) :
    ∀ dp ∈ t, ∀ i, dp.id = some i →
      i ∈ delIds (reconcile_history env sp sot_map wf) := by
  intro dp hdp i hid
  rw [mem_delIds]
  refine mem_calls_of_mem_day env sp sot_map wf ds v hday _ ?_
  rw [lookupGroups_groupByDay]
  rw [reconcileDay_cons env ds v _ k t hsort]
  refine List.mem_append.mpr (Or.inl ?_)
  refine List.mem_filterMap.mpr ⟨dp, hdp, ?_⟩
  rw [hid]
  rfl

/-- The keeper of a day survives the whole run. -/
theorem keeper_survives (env : Env) (sp : Bool)
    (sot_map : List (String × Int)) (wf : List DP)
    (hids : (wf.filterMap DP.id).Nodup)
    (ds : String) (v : Int) (hday : (ds, v) ∈ sot_map)
    (k : DP) (t l1 l2 : List DP)
    (hsort : sortDesc (dp_updated_key env)
      (wf.filter (fun dp => decide (effDay env dp = some ds))) = k :: t)
    (heq : wf.filter (fun dp => decide (effDay env dp = some ds)) =
      l1 ++ k :: l2)
    (hperm : t.Perm (l1 ++ l2)) :
    survives (reconcile_history env sp sot_map wf) k = true := by
  rcases hkid : k.id with _ | kid
  · exact survives_of_id_none _ k hkid
  · rw [survives_iff]
    rintro i hdel hcontra
    have hikid : kid = i := by
      rw [hkid] at hcontra
      injection hcontra
  -- below, derive a contradiction from the delete call on the keeper's id
    subst hikid
    obtain ⟨hkwf, hkeff⟩ := head_mem_bucket env wf ds k t hsort
    rw [mem_delIds] at hdel
    unfold reconcile_history at hdel
    rcases List.mem_append.mp hdel with hmain | hpurge
    · rw [main_calls_eq_flatMap, List.mem_flatMap] at hmain
      obtain ⟨p, hp, hdaycall⟩ := hmain
      rcases hsp : sortDesc (dp_updated_key env)
          (lookupGroups (groupByDay env wf) p.1) with _ | ⟨kp, tp⟩
      · rw [(sortDesc_eq_nil_iff _ _).mp hsp, reconcileDay_nil] at hdaycall
        rcases List.mem_cons.mp hdaycall with he | he
        · cases he
        · cases he
      · have hkid_in : kid ∈ delIds (reconcileDay env p.1 p.2
            (lookupGroups (groupByDay env wf) p.1)) :=
          (mem_delIds _ kid).mpr hdaycall
        rw [reconcileDay_delIds env p.1 p.2 _ kp tp hsp] at hkid_in
        obtain ⟨e, hetp, heid⟩ := List.mem_filterMap.mp hkid_in
        rw [lookupGroups_groupByDay] at hsp
        obtain ⟨hewf, heeff⟩ := tail_mem_bucket env wf p.1 kp tp hsp e hetp
        have heqk : e = k := eq_of_same_id wf hids e hewf k hkwf kid heid hkid
        rw [heqk] at hetp heeff
        have hp1 : p.1 = ds := by
          rw [hkeff] at heeff
          injection heeff with hh
          exact hh.symm
        rw [hp1] at hsp
        rw [hsort] at hsp
        have htp : tp = t := by
          injection hsp with h1 h2
          exact h2.symm
        rw [htp] at hetp
        have hkll : k ∈ l1 ++ l2 := hperm.mem_iff.mp hetp
        have hsub : ((wf.filter
            (fun dp => decide (effDay env dp = some ds))).filterMap DP.id).Sublist
            (wf.filterMap DP.id) :=
          List.Sublist.filterMap DP.id (List.filter_sublist wf)
        have hnodupb := List.Nodup.sublist hsub hids
        rw [heq, List.filterMap_append, List.filterMap_cons, hkid] at hnodupb
        have hmid := List.nodup_middle.mp hnodupb
        have hnotin := (List.nodup_cons.mp hmid).1
        rcases List.mem_append.mp hkll with h1 | h2
        · exact hnotin (List.mem_append.mpr (Or.inl
            (List.mem_filterMap.mpr ⟨k, h1, hkid⟩)))
        · exact hnotin (List.mem_append.mpr (Or.inr
            (List.mem_filterMap.mpr ⟨k, h2, hkid⟩)))
    · rcases hspv : sp with _ | _
      · rw [hspv] at hpurge; simp at hpurge
      · rw [hspv] at hpurge
        simp only [if_true] at hpurge
        obtain ⟨dp, hdpwf, hdpid, ds0, heff0, hds0⟩ :=
          (purge_mem_iff env sot_map wf kid).mp hpurge
        have heqk : dp = k := eq_of_same_id wf hids dp hdpwf k hkwf kid hdpid hkid
        rw [heqk] at heff0
        rw [hkeff] at heff0
        have hds0ds : ds0 = ds := by
          injection heff0 with hh
          exact hh.symm
        rw [hds0ds] at hds0
        exact hds0 (List.mem_map.mpr ⟨(ds, v), hday, rfl⟩)

/-- A converged keeper is not updated by the run. -/
theorem keeper_no_update (env : Env) (sp : Bool)
    (sot_map : List (String × Int)) (wf : List DP)
    (hnd : (sot_map.map Prod.fst).Nodup)
    (hids : (wf.filterMap DP.id).Nodup)
    (ds : String) (v : Int) (hday : (ds, v) ∈ sot_map)
    (k : DP) (t : List DP)
    (hsort : sortDesc (dp_updated_key env)
      (wf.filter (fun dp => decide (effDay env dp = some ds))) = k :: t)
    (hmat : ¬(pyRound (k.value.getD 0) ≠ v ∨
      k.comment.getD "" ≠ comment_ok ds v)) :
    applyUpds (reconcile_history env sp sot_map wf) k = k := by
  apply applyUpds_of_not_mem
  rintro i hupd hcontra
  obtain ⟨hkwf, hkeff⟩ := head_mem_bucket env wf ds k t hsort
  rw [mem_updIds] at hupd
  obtain ⟨v', c', d', hmem⟩ := hupd
  obtain ⟨keeper', hk'wf, hk'id, hk'eff, hdv, hcm, hmemday⟩ :=
    mem_update_char env sp sot_map wf i v' c' d' hmem
  have heqk : keeper' = k :=
    eq_of_same_id wf hids keeper' hk'wf k hkwf i hk'id hcontra
  rw [heqk] at hk'eff
  have hd' : d' = ds := by
    rw [hkeff] at hk'eff
    injection hk'eff with hh
    exact hh.symm
  rw [hd'] at hdv
  have hv' : v' = v := pair_nodup_val sot_map hnd ds v' v hdv hday
  rw [hd', hv'] at hmemday
  rw [lookupGroups_groupByDay, reconcileDay_cons env ds v _ k t hsort,
    if_neg hmat, List.append_nil] at hmemday
  obtain ⟨dp, _, hmap⟩ := List.mem_filterMap.mp hmemday
  obtain ⟨j, _, hinj⟩ := Option.map_eq_some'.mp hmap
  cases hinj

/-- A mismatched keeper with an id receives exactly the canonical
payload from the run's updates. -/
theorem keeper_updated (env : Env) (sp : Bool)
    (sot_map : List (String × Int)) (wf : List DP)
    (hk : ∀ p ∈ sot_map, p.1 ≠ "")
    (hnd : (sot_map.map Prod.fst).Nodup)
    (hids : (wf.filterMap DP.id).Nodup)
    (ds : String) (v : Int) (hday : (ds, v) ∈ sot_map)
    (k : DP) (t : List DP)
    (hsort : sortDesc (dp_updated_key env)
      (wf.filter (fun dp => decide (effDay env dp = some ds))) = k :: t)
    (kid : String) (hkid : k.id = some kid)
    (hmis : pyRound (k.value.getD 0) ≠ v ∨
      k.comment.getD "" ≠ comment_ok ds v) :
    applyUpds (reconcile_history env sp sot_map wf) k =
      { k with
        value := some ((v : ℚ))
        comment := some (comment_ok ds v)
        daystamp := some ds } := by
  obtain ⟨hkwf, hkeff⟩ := head_mem_bucket env wf ds k t hsort
  apply applyUpds_sets v (comment_ok ds v) ds (hk (ds, v) hday)
  · rintro i v' c' d' hmem hcontra
    obtain ⟨keeper', hk'wf, hk'id, hk'eff, hdv, hcm, _⟩ :=
      mem_update_char env sp sot_map wf i v' c' d' hmem
    have heqk : keeper' = k :=
      eq_of_same_id wf hids keeper' hk'wf k hkwf i hk'id hcontra
    rw [heqk] at hk'eff
    have hd' : d' = ds := by
      rw [hkeff] at hk'eff
      injection hk'eff with hh
      exact hh.symm
    rw [hd'] at hdv
    have hv' : v' = v := pair_nodup_val sot_map hnd ds v' v hdv hday
    refine ⟨hv', ?_, hd'⟩
    rw [hcm, hd', hv']
  · refine ⟨kid, v, comment_ok ds v, ds, ?_, hkid⟩
    refine mem_calls_of_mem_day env sp sot_map wf ds v hday _ ?_
    rw [lookupGroups_groupByDay, reconcileDay_cons env ds v _ k t hsort,
      if_pos hmis, hkid]
    exact List.mem_append.mpr (Or.inr (List.mem_cons_self _ _))

/-! ## The replayed collection's buckets -/

/-- The replayed collection in normal form. -/
theorem wf'_eq (env : Env) (sp : Bool) (sot_map : List (String × Int))
    (wf : List DP) (freshId : Nat → String)
    (hfr : ∀ n, freshId n ∉ wf.filterMap DP.id) :
    applyCalls freshId (reconcile_history env sp sot_map wf) wf 0 =
      (wf.map (applyUpds (reconcile_history env sp sot_map wf))).filter
        (survives (reconcile_history env sp sot_map wf)) ++
      createdOf freshId (reconcile_history env sp sot_map wf) 0 := by
  apply applyCalls_nf
  intro m _
  constructor
  · intro hd
    exact hfr m (reconcile_delIds_sub env sp sot_map wf _ hd)
  · intro hu
    exact hfr m (reconcile_updIds_sub env sp sot_map wf _ hu)

/-- Buckets of the replayed collection: the surviving updated records of
the same fetched day, followed by the created records of that day. -/
theorem bucket'_eq (env : Env) (sp : Bool) (sot_map : List (String × Int))
    (wf : List DP) (freshId : Nat → String)
    (hk : ∀ p ∈ sot_map, p.1 ≠ "")
    (hids : (wf.filterMap DP.id).Nodup)
    (hfr : ∀ n, freshId n ∉ wf.filterMap DP.id) (ds : String) :
    lookupGroups (groupByDay env
        (applyCalls freshId (reconcile_history env sp sot_map wf) wf 0)) ds =
      ((wf.filter (fun dp => decide (effDay env dp = some ds))).filter
          (survives (reconcile_history env sp sot_map wf))).map
        (applyUpds (reconcile_history env sp sot_map wf)) ++
      (createdOf freshId (reconcile_history env sp sot_map wf) 0).filter
        (fun dp => decide (effDay env dp = some ds)) := by
  rw [lookupGroups_groupByDay, wf'_eq env sp sot_map wf freshId hfr,
    List.filter_append]
  congr 1
  rw [List.filter_filter, List.filter_map, List.filter_filter]
  congr 1
  apply List.filter_congr
  intro dp hdp
  simp only [Function.comp_apply]
  rw [survives_applyUpds]
  rw [effDay_U env sp sot_map wf hk hids dp hdp]
  exact Bool.and_comm _ _

/-- After one run is replayed, every SoT day is converged: its second
reconciliation issues no call. -/
theorem day_converged (env : Env) (sp : Bool) (sot_map : List (String × Int))
    (wf : List DP) (freshId : Nat → String)
    (hk : ∀ p ∈ sot_map, p.1 ≠ "")
    (hnd : (sot_map.map Prod.fst).Nodup)
    (hids : (wf.filterMap DP.id).Nodup)
    (hfr : ∀ n, freshId n ∉ wf.filterMap DP.id)
    (ds : String) (v : Int) (hday : (ds, v) ∈ sot_map) :
    reconcileDay env ds v
      (lookupGroups (groupByDay env
        (applyCalls freshId (reconcile_history env sp sot_map wf) wf 0)) ds) =
      [] := by
  rw [bucket'_eq env sp sot_map wf freshId hk hids hfr ds]
  by_cases hbnil : wf.filter (fun dp => decide (effDay env dp = some ds)) = []
  · rw [hbnil]
    simp only [List.filter_nil, List.map_nil, List.nil_append]
    have hlook : lookupGroups (groupByDay env wf) ds = [] := by
      rw [lookupGroups_groupByDay]
      exact hbnil
    have hnd' : ((sortPairs sot_map).map Prod.fst).Nodup :=
      (((sortPairs_perm sot_map).map Prod.fst).nodup_iff).mpr hnd
    have hne' : ∀ p ∈ sortPairs sot_map, p.1 ≠ "" :=
      fun p hp => hk p ((sortPairs_perm _).mem_iff.mp hp)
    obtain ⟨m, hsingle⟩ := created_flatMap_singleton env freshId
      (groupByDay env wf) (sortPairs sot_map) 0 hnd' hne' ds v
      ((sortPairs_perm _).mem_iff.mpr hday) hlook
    rw [created_calls_eq_main env freshId sp sot_map wf, main_calls_eq_flatMap,
      hsingle]
    rw [reconcileDay_cons env ds v _ _ [] (sortDesc_singleton _ _)]
    have hval : pyRound
        ((mkCreated (freshId m) v (comment_ok ds v) ds).value.getD 0) = v := by
      rw [show (mkCreated (freshId m) v (comment_ok ds v) ds).value.getD 0 =
        ((v : ℚ)) from rfl, pyRound_intCast]
    have hcm : (mkCreated (freshId m) v (comment_ok ds v) ds).comment.getD ""
        = comment_ok ds v := rfl
    rw [if_neg (by push_neg; exact ⟨hval, hcm⟩)]
    rfl
  · obtain ⟨k, t, l1, l2, hsort0, heq, hlt, hle, hperm⟩ :=
      sortDesc_spec (dp_updated_key env) _ hbnil
    have hcreated : (createdOf freshId
        (reconcile_history env sp sot_map wf) 0).filter
        (fun dp => decide (effDay env dp = some ds)) = [] := by
      rw [List.filter_eq_nil_iff]
      intro x hx
      obtain ⟨p, hp, m, hxe, hpnil⟩ :=
        created_calls_mem env freshId sp sot_map wf x hx
      rw [hxe, effDay_mkCreated env _ _ _ _ (hk p hp)]
      simp only [decide_eq_true_eq, Option.some.injEq, Bool.not_eq_true]
      intro hpds
      rw [hpds, lookupGroups_groupByDay] at hpnil
      exact hbnil hpnil
    rw [hcreated, List.append_nil]
    have hSk : survives (reconcile_history env sp sot_map wf) k = true :=
      keeper_survives env sp sot_map wf hids ds v hday k t l1 l2 hsort0 heq
        hperm
    have hll : ∀ dp ∈ l1 ++ l2,
        survives (reconcile_history env sp sot_map wf) dp = true →
        dp.id = none := by
      intro dp hdp hS
      rcases hid : dp.id with _ | i
      · rfl
      · exfalso
        have hdel := extra_deleted env sp sot_map wf ds v hday k t hsort0 dp
          (hperm.mem_iff.mpr hdp) i hid
        rw [survives_eq_false_of _ dp i hdel hid] at hS
        cases hS
    rw [heq, List.filter_append,
      List.filter_cons_of_pos hSk, List.map_append, List.map_cons]
    have hl1none : ∀ dp ∈ l1.filter
        (survives (reconcile_history env sp sot_map wf)), dp.id = none := by
      intro dp hdp
      have hsplit := List.mem_filter.mp hdp
      exact hll dp (List.mem_append.mpr (Or.inl hsplit.1)) hsplit.2
    have hl2none : ∀ dp ∈ l2.filter
        (survives (reconcile_history env sp sot_map wf)), dp.id = none := by
      intro dp hdp
      have hsplit := List.mem_filter.mp hdp
      exact hll dp (List.mem_append.mpr (Or.inr hsplit.1)) hsplit.2
    have hmapl1 : (l1.filter
        (survives (reconcile_history env sp sot_map wf))).map
        (applyUpds (reconcile_history env sp sot_map wf)) =
        l1.filter (survives (reconcile_history env sp sot_map wf)) := by
      rw [List.map_congr_left
        (fun dp hdp => applyUpds_of_id_none _ dp (hl1none dp hdp))]
      exact List.map_id _
    have hmapl2 : (l2.filter
        (survives (reconcile_history env sp sot_map wf))).map
        (applyUpds (reconcile_history env sp sot_map wf)) =
        l2.filter (survives (reconcile_history env sp sot_map wf)) := by
      rw [List.map_congr_left
        (fun dp hdp => applyUpds_of_id_none _ dp (hl2none dp hdp))]
      exact List.map_id _
    rw [hmapl1, hmapl2]
    have hkey : dp_updated_key env
        (applyUpds (reconcile_history env sp sot_map wf) k) =
        dp_updated_key env k := applyUpds_key env _ k
    obtain ⟨t', hsort', hperm'⟩ := sortDesc_of_firstMax (dp_updated_key env)
      (applyUpds (reconcile_history env sp sot_map wf) k)
      (l1.filter (survives (reconcile_history env sp sot_map wf)))
      (l2.filter (survives (reconcile_history env sp sot_map wf)))
      (by
        intro y hy
        rw [hkey]
        exact hlt y (List.mem_filter.mp hy).1)
      (by
        intro y hy
        rw [hkey]
        rcases List.mem_append.mp hy with h1 | h2
        · exact le_of_lt (hlt y (List.mem_filter.mp h1).1)
        · rcases List.mem_cons.mp h2 with rfl | h3
          · rw [hkey]
          · refine hle y ?_
            rw [heq]
            exact List.mem_append.mpr (Or.inr (List.mem_cons_of_mem k
              (List.mem_filter.mp h3).1)))
    rw [reconcileDay_cons env ds v _ _ t' hsort']
    have hdelnil : t'.filterMap (fun dp => dp.id.map Call.delete) = [] := by
      rw [List.filterMap_eq_nil_iff]
      intro dp hdp
      rcases List.mem_append.mp (hperm'.mem_iff.mp hdp) with h1 | h2
      · rw [hl1none dp h1]
        rfl
      · rw [hl2none dp h2]
        rfl
    rw [hdelnil, List.nil_append]
    rcases hkid : k.id with _ | kid
    · have hUk : applyUpds (reconcile_history env sp sot_map wf) k = k :=
        applyUpds_of_id_none _ k hkid
      rw [hUk]
      by_cases hmis : pyRound (k.value.getD 0) ≠ v ∨
          k.comment.getD "" ≠ comment_ok ds v
      · rw [if_pos hmis, hkid]
      · rw [if_neg hmis]
    · by_cases hmis : pyRound (k.value.getD 0) ≠ v ∨
          k.comment.getD "" ≠ comment_ok ds v
      · have hUk := keeper_updated env sp sot_map wf hk hnd hids ds v hday
          k t hsort0 kid hkid hmis
        rw [hUk]
        have hval : pyRound (({ k with
            value := some ((v : ℚ))
            comment := some (comment_ok ds v)
            daystamp := some ds } : DP).value.getD 0) = v := by
          rw [show ({ k with
            value := some ((v : ℚ))
            comment := some (comment_ok ds v)
            daystamp := some ds } : DP).value.getD 0 = ((v : ℚ)) from rfl,
            pyRound_intCast]
        have hcm : ({ k with
            value := some ((v : ℚ))
            comment := some (comment_ok ds v)
            daystamp := some ds } : DP).comment.getD "" = comment_ok ds v :=
          rfl
        rw [if_neg (by push_neg; exact ⟨hval, hcm⟩)]
      · have hUk := keeper_no_update env sp sot_map wf hnd hids ds v hday
          k t hsort0 hmis
        rw [hUk, if_neg hmis]

/-- After a strict-purge run is replayed, the purge finds nothing left to
delete. -/
theorem purge_converged (env : Env) (sot_map : List (String × Int))
    (wf : List DP) (freshId : Nat → String)
    (hk : ∀ p ∈ sot_map, p.1 ≠ "")
    (hids : (wf.filterMap DP.id).Nodup)
    (hfr : ∀ n, freshId n ∉ wf.filterMap DP.id) :
    purge_calls sot_map (groupByDay env
      (applyCalls freshId (reconcile_history env true sot_map wf) wf 0)) =
      [] := by
  rw [purge_calls_eq_bind, List.eq_nil_iff_forall_not_mem]
  intro c hc
  rw [List.mem_flatMap] at hc
  obtain ⟨p, hp, hin⟩ := hc
  by_cases hkmem : p.1 ∈ sot_map.map Prod.fst
  · rw [if_pos hkmem] at hin
    cases hin
  · rw [if_neg hkmem] at hin
    obtain ⟨dp, hdp, hmap⟩ := List.mem_filterMap.mp hin
    obtain ⟨j, hj, _⟩ := Option.map_eq_some'.mp hmap
    have hentry := groupByDay_entry env _ p.1 p.2
      (by rw [Prod.mk.eta]; exact hp)
    rw [hentry] at hdp
    have hsplit := List.mem_filter.mp hdp
    have heffp : effDay env dp = some p.1 := by simpa using hsplit.2
    have hdpwf' := hsplit.1
    rw [wf'_eq env true sot_map wf freshId hfr] at hdpwf'
    rcases List.mem_append.mp hdpwf' with hmain | hcre
    · have hsplit2 := List.mem_filter.mp hmain
      obtain ⟨dp0, hdp0, hdpe⟩ := List.mem_map.mp hsplit2.1
      have hS : survives (reconcile_history env true sot_map wf) dp0 =
          true := by
        rw [← survives_applyUpds _ (reconcile_history env true sot_map wf) dp0,
          hdpe]
        exact hsplit2.2
      have hid0 : dp0.id = some j := by
        rw [← applyUpds_id (reconcile_history env true sot_map wf) dp0, hdpe]
        exact hj
      have heff0 : effDay env dp0 = some p.1 := by
        rw [← effDay_U env true sot_map wf hk hids dp0 hdp0, hdpe]
        exact heffp
      have hpm : Call.delete j ∈ purge_calls sot_map (groupByDay env wf) :=
        (purge_mem_iff env sot_map wf j).mpr
          ⟨dp0, hdp0, hid0, p.1, heff0, hkmem⟩
      have hdelm : j ∈ delIds (reconcile_history env true sot_map wf) := by
        rw [mem_delIds]
        unfold reconcile_history
        exact List.mem_append.mpr (Or.inr (by simpa using hpm))
      rw [survives_eq_false_of _ dp0 j hdelm hid0] at hS
      cases hS
    · obtain ⟨q, hq, m, hxe, _⟩ :=
        created_calls_mem env freshId true sot_map wf dp hcre
      have heffq : effDay env dp = some q.1 := by
        rw [hxe]
        exact effDay_mkCreated env _ _ _ _ (hk q hq)
      have hq1 : q.1 = p.1 := by
        rw [heffq] at heffp
        injection heffp
      exact hkmem (hq1 ▸ List.mem_map.mpr ⟨q, hq, rfl⟩)

/-- Claim C3: the Reconciler is idempotent — for every SoT mapping (with
genuine, pairwise-distinct daystamps), every fetched collection with
pairwise-distinct remote ids, and any choice of fresh remote ids for the
creates, replaying one run of `reconcile_history` and then running it
again issues zero create, update or delete calls. -/
theorem c3_reconcile_history_idempotent (env : Env) (sp : Bool)
    (sot_map : List (String × Int)) (wf : List DP) (freshId : Nat → String)
    (hk : ∀ p ∈ sot_map, p.1 ≠ "")
    (hnd : (sot_map.map Prod.fst).Nodup)
    (hids : (wf.filterMap DP.id).Nodup)
    (hfr : ∀ n, freshId n ∉ wf.filterMap DP.id) :
    reconcile_history env sp sot_map
      (applyCalls freshId (reconcile_history env sp sot_map wf) wf 0) = [] := by
  show main_calls env sot_map (groupByDay env
      (applyCalls freshId (reconcile_history env sp sot_map wf) wf 0)) ++
    (if sp then purge_calls sot_map (groupByDay env
      (applyCalls freshId (reconcile_history env sp sot_map wf) wf 0))
     else []) = []
  have hmain : main_calls env sot_map (groupByDay env
      (applyCalls freshId (reconcile_history env sp sot_map wf) wf 0)) = [] := by
    rw [main_calls_eq_flatMap, List.eq_nil_iff_forall_not_mem]
    intro c hc
    rw [List.mem_flatMap] at hc
    obtain ⟨p, hp, hin⟩ := hc
    rw [show p = (p.1, p.2) from (Prod.mk.eta).symm] at hp
    have hday : (p.1, p.2) ∈ sot_map := (sortPairs_perm _).mem_iff.mp hp
    rw [day_converged env sp sot_map wf freshId hk hnd hids hfr p.1 p.2
      hday] at hin
    cases hin
  rw [hmain, List.nil_append]
  rcases hsp : sp with _ | _
  · rfl
  · rw [if_pos rfl]
    rw [hsp] at *
    exact purge_converged env sot_map wf freshId hk hids hfr

/-- Witness for C3 at a concrete input: one SoT day and an empty remote
collection — after replaying the first run (which creates the day), the
second run issues no call. -/
theorem c3_reconcile_history_idempotent_witness :
    reconcile_history envW false [("20250101", 1)]
      (applyCalls (fun n => toString n)
        (reconcile_history envW false [("20250101", 1)] []) [] 0) = [] :=
  c3_reconcile_history_idempotent envW false [("20250101", 1)] []
    (fun n => toString n)
    (by decide)
    (by decide)
    (by decide)
    (by simp)

end WakeFocus
